import Mathlib

/-!
Verification development for the EPUB structural content-extraction engine
(`scripts/epub_to_xml.py`): a shallow embedding of its data model and
operations, together with theorems about the extraction pipeline.

Strings are modelled as `List Char` (`Str`); the Python string methods the
source uses (`strip`, `split`, `join`, `lstrip`, percent-decoding, …) are
given executable char-level models.  External library collaborators
(hashlib's md5, PIL's image decoder, base64, `os.path.relpath`) are
threaded through as an explicit `Ext` record of pure functions, since the
engine only consumes their results.
-/

namespace EpubXml

/-- Strings of the embedded program are plain lists of characters. -/
abbrev Str := List Char

/-- Coerce a Lean string literal to the embedded string type. -/
def str (x : String) : Str := x.data

/-- Whitespace predicate used by `str.strip()` / `str.split()`; models the
ASCII whitespace characters Python treats as whitespace. -/
def isPyWs (c : Char) : Bool :=
  c == ' ' || c == '\t' || c == '\n' || c == '\r' || c == '\x0b' || c == '\x0c'

/-- Model of Python `str.strip()` with no argument (strip whitespace). -/
def pyStrip (s : Str) : Str :=
  ((s.dropWhile isPyWs).reverse.dropWhile isPyWs).reverse

/-- Model of Python `str.lstrip(cs)`: drop leading characters from the set. -/
def pyLstrip (cs : List Char) (s : Str) : Str :=
  s.dropWhile (fun c => c ∈ cs)

/-- Helper for `pyWords`: accumulate the current word (reversed) while
scanning. -/
def pyWordsAux : Str → Str → List Str
  | [], acc => if acc.isEmpty then [] else [acc.reverse]
  | c :: rest, acc =>
      if isPyWs c then
        if acc.isEmpty then pyWordsAux rest [] else acc.reverse :: pyWordsAux rest []
      else pyWordsAux rest (c :: acc)

/-- Model of Python `str.split()` with no argument: maximal runs of
non-whitespace characters. -/
def pyWords (s : Str) : List Str := pyWordsAux s []

/-- Model of Python `' '.join(words)`. -/
def joinWords : List Str → Str
  | [] => []
  | [w] => w
  | w :: ws => w ++ ' ' :: joinWords ws

/-- No two consecutive whitespace characters occur in the string. -/
def noDoubleWs : Str → Bool
  | [] => true
  | [_] => true
  | a :: b :: rest => !(isPyWs a && isPyWs b) && noDoubleWs (b :: rest)

/-- The paragraph-text invariant: non-empty, no leading or trailing
whitespace, and no internal run of two or more whitespace characters. -/
def textNormalized (s : Str) : Bool :=
  !s.isEmpty &&
  (match s.head? with
   | some c => !isPyWs c
   | none => true) &&
  (match s.getLast? with
   | some c => !isPyWs c
   | none => true) &&
  noDoubleWs s

/-- Model of `str.lower()` restricted to ASCII, as used on format names. -/
def pyLower (s : Str) : Str := s.map Char.toLower

/-- Model of `str.endswith(c)` for a single character. -/
def strEndsWith (s : Str) (c : Char) : Bool := s.getLast? == some c

/-- Value of a hexadecimal digit, used by percent-decoding. -/
def hexVal (c : Char) : Option Nat :=
  if '0' ≤ c ∧ c ≤ '9' then some (c.toNat - '0'.toNat)
  else if 'a' ≤ c ∧ c ≤ 'f' then some (c.toNat - 'a'.toNat + 10)
  else if 'A' ≤ c ∧ c ≤ 'F' then some (c.toNat - 'A'.toNat + 10)
  else none

/-- Model of `urllib.parse.unquote` for single-byte percent escapes; unpaired
or malformed escapes are kept verbatim, as in Python. -/
def pyUnquote : Str → Str
  | '%' :: a :: b :: rest =>
      match hexVal a, hexVal b with
      | some x, some y => Char.ofNat (16 * x + y) :: pyUnquote rest
      | _, _ => '%' :: pyUnquote (a :: b :: rest)
  | c :: rest => c :: pyUnquote rest
  | [] => []

/-- Model of `.split('#')[0]`: everything before the first fragment marker. -/
def splitHash (s : Str) : Str := s.takeWhile (fun c => c ≠ '#')

/-- Model of `.replace('\\', '/')`. -/
def backslashToSlash (s : Str) : Str :=
  s.map (fun c => if c = '\\' then '/' else c)

/-- Model of `str(pathlib.PurePosixPath(s))`: empty and `.` segments are
dropped, `..` segments are kept (PurePath does not resolve them); an empty
result renders as `.` (or `/` when the path was rooted).  Multiple leading
slashes are modelled as a single root. -/
def pyPathStr (s : Str) : Str :=
  let rooted := s.head? == some '/'
  let segs := (List.splitOn '/' s).filter (fun seg => !seg.isEmpty && seg ≠ ['.'])
  if segs.isEmpty then (if rooted then str ("/") else str ("."))
  else (if rooted then str ("/") else []) ++ List.intercalate (str ("/")) segs

/-- Substring test, used to recognize references that carry a URI scheme. -/
def hasSubstr (pat : Str) : Str → Bool
  | [] => pat.isEmpty
  | c :: rest => pat.isPrefixOf (c :: rest) || hasSubstr pat rest

/-- Everything up to and including the last `/` of a reference (the
directory part used when resolving a relative reference). -/
def dirWithSlash (s : Str) : Str :=
  ((s.reverse.dropWhile (fun c => c ≠ '/'))).reverse

/-- Resolve `.` and `..` segments of a merged reference, RFC-3986 style, as
`urllib.parse.urljoin` does; a `..` with nothing to consume is kept. -/
def resolveDotSegments (s : Str) : Str :=
  let segs := List.splitOn '/' s
  let out := segs.foldl
    (fun acc seg =>
      if seg = ['.'] then acc
      else if seg = ['.', '.'] then
        (if acc.isEmpty || acc.getLast? == some ['.', '.'] then acc ++ [seg] else acc.dropLast)
      else acc ++ [seg]) []
  List.intercalate (str ("/")) out

/-- Model of `urllib.parse.urljoin` for the schemeless, relative references
this repository exercises: absolute URIs and root-relative references are
returned as-is, fragment-only references replace the base's fragment, and
other references are merged against the base's directory with dot-segment
resolution. -/
def pyUrljoin (base ref : Str) : Str :=
  if ref.isEmpty then base
  else if hasSubstr (str ("://")) ref then ref
  else if ref.head? == some '/' then ref
  else if ref.head? == some '#' then (base.takeWhile (fun c => c ≠ '#')) ++ ref
  else resolveDotSegments (dirWithSlash base ++ ref)

/-- Numeric value of a digit string. -/
def digitsToNat (s : Str) : Nat :=
  s.foldl (fun acc c => 10 * acc + (c.toNat - '0'.toNat)) 0

/-- Model of `int(float(s))` for the plain decimal literals that appear as
markup dimension attributes: optional sign, digits, optional fraction;
truncates toward zero.  Anything else raises `ValueError`, modelled as
`none`. -/
def pyIntOfFloat (s : Str) : Option Int :=
  let t := pyStrip s
  let signed : Bool × Str :=
    match t with
    | '-' :: rest => (true, rest)
    | '+' :: rest => (false, rest)
    | _ => (false, t)
  let neg := signed.1
  let t₁ := signed.2
  let intPart := t₁.takeWhile Char.isDigit
  let rest := t₁.drop intPart.length
  let finish (v : Nat) : Option Int := some (if neg then -(v : Int) else (v : Int))
  match rest with
  | [] => if intPart.isEmpty then none else finish (digitsToNat intPart)
  | '.' :: frac =>
      if frac.all Char.isDigit && !(intPart.isEmpty && frac.isEmpty) then
        finish (digitsToNat intPart)
      else none
  | _ => none

/-- Model of `str.replace('px', '')`, used when parsing dimension
attributes. -/
def stripPx : Str → Str
  | 'p' :: 'x' :: rest => stripPx rest
  | c :: rest => c :: stripPx rest
  | [] => []

/-- Decimal rendering of an integer, as Python string formatting produces. -/
def intToStr (n : Int) : Str := (toString n).data

/-- Decimal rendering of a natural number. -/
def natToStr (n : Nat) : Str := (toString n).data

/-- Helper for `dedupKeepFirst`, carrying the set of values already seen. -/
def dedupKeepFirstAux : List Str → List Str → List Str
  | [], _ => []
  | x :: rest, seen =>
      if x ∈ seen then dedupKeepFirstAux rest seen
      else x :: dedupKeepFirstAux rest (seen ++ [x])

/-- Remove duplicates keeping the first occurrence, as
`dict.fromkeys(...)` does. -/
def dedupKeepFirst (l : List Str) : List Str := dedupKeepFirstAux l []

/-- Parsed markup node, as produced by BeautifulSoup: either a text node or
an element with a name, attributes and children in document order. -/
inductive PNode where
  | text (s : Str)
  | elem (name : Str) (attrs : List (Str × Str)) (children : List PNode)

/-- Name of an element node (text nodes have no name). -/
def tagName : PNode → Str
  | .text _ => []
  | .elem n _ _ => n

/-- Model of `tag.get(key)`: first attribute with the given name. -/
def attrGet (t : PNode) (k : Str) : Option Str :=
  match t with
  | .text _ => none
  | .elem _ attrs _ => (attrs.find? (fun a => a.1 == k)).map (fun a => a.2)

/-- Python `or` chaining over optional attribute values: `None` and the
empty string are both falsy and fall through to the next alternative. -/
def pyOr (a b : Option Str) : Option Str :=
  match a with
  | some v => if v.isEmpty then b else some v
  | none => b

mutual
/-- All text-node contents below a node, in document order (the node's own
text when it is a text node). -/
def collectTexts : PNode → List Str
  | .text s => [s]
  | .elem _ _ cs => collectTextsList cs

/-- List version of `collectTexts`. -/
def collectTextsList : List PNode → List Str
  | [] => []
  | c :: rest => collectTexts c ++ collectTextsList rest
end

/-- Model of BeautifulSoup `tag.get_text()`: concatenation of all descendant
strings. -/
def getText (t : PNode) : Str := (collectTexts t).flatten

/-- Model of BeautifulSoup `tag.stripped_strings`: descendant strings,
stripped, with empties dropped. -/
def strippedStrings (t : PNode) : List Str :=
  ((collectTexts t).map pyStrip).filter (fun s => !s.isEmpty)

/-- Model of BeautifulSoup `tag.string`: the single string below a chain of
single-child tags, `None` otherwise. -/
def tagString : PNode → Option Str
  | .text s => some s
  | .elem _ _ cs =>
      match cs with
      | [c] => tagString c
      | _ => none

mutual
/-- A node together with its element descendants satisfying the predicate,
in document pre-order (the node itself is tested first). -/
def descendantsSelf (p : PNode → Bool) : PNode → List PNode
  | .text _ => []
  | .elem nm attrs cs =>
      (if p (.elem nm attrs cs) then [PNode.elem nm attrs cs] else []) ++
        descendantsList p cs

/-- Matching element descendants of a forest, in document pre-order. -/
def descendantsList (p : PNode → Bool) : List PNode → List PNode
  | [] => []
  | e :: rest => descendantsSelf p e ++ descendantsList p rest
end

/-- All element descendants (excluding the node itself, like BeautifulSoup
`find_all`) satisfying the predicate, in document pre-order. -/
def findAllNodes (p : PNode → Bool) : PNode → List PNode
  | .text _ => []
  | .elem _ _ cs => descendantsList p cs

/-- Model of BeautifulSoup `tag.find(name)` (and `soup.body` etc.): first
matching element descendant. -/
def findFirstNode (p : PNode → Bool) (t : PNode) : Option PNode :=
  (findAllNodes p t).head?

/-- Descendant elements with a given tag name. -/
def findAllByName (t : PNode) (nm : Str) : List PNode :=
  findAllNodes (fun n => tagName n == nm) t

/-- First descendant element with a given tag name. -/
def findFirstByName (t : PNode) (nm : Str) : Option PNode :=
  findFirstNode (fun n => tagName n == nm) t

/-- Model of `tag.find_all(recursive=False)`: the direct child tags. -/
def directChildTags : PNode → List PNode
  | .text _ => []
  | .elem _ _ cs => cs.filter (fun c => match c with
      | .elem _ _ _ => true
      | .text _ => false)

end EpubXml

namespace EpubXml

/-- Manifest item kinds exposed by the book accessor (ebooklib item types). -/
inductive ItemType where
  | document
  | image
  | navigation
  | other
deriving DecidableEq

/-- A manifest item of the book: identifier, href (name), EPUB3 properties,
type, parsed markup (for document/navigation items) and raw bytes (for
image items).  Container parsing itself is the excluded layer, so items
arrive already parsed. -/
structure EpubItem where
  id : Str
  name : Str
  properties : List Str
  itemType : ItemType
  doc : PNode
  bytes : List Nat

/-- The book accessor: manifest items plus the spine (reading order) as
`(idref, linear)` pairs, as ebooklib's `book.spine` yields them. -/
structure Book where
  items : List EpubItem
  spine : List (Str × Str)

/-- Model of ebooklib `book.get_item_with_href`. -/
def getItemWithHref (book : Book) (href : Str) : Option EpubItem :=
  book.items.find? (fun it => it.name == href)

/-- Model of ebooklib `book.get_item_with_id`. -/
def getItemWithId (book : Book) (ident : Str) : Option EpubItem :=
  book.items.find? (fun it => it.id == ident)

/-- Configuration settings of the processor (`ExtractorConfig` in the
source); only the fields the embedded operations consume are carried. -/
structure ExtractorConfig where
  minImageWidth : Int := 128
  minImageHeight : Int := 128
  imageFormat : Str := str ("JPEG")
  quality : Nat := 95
  outputDir : Str := str ("output")
  imageDirName : Str := str ("images")
deriving DecidableEq

/-- Result of decoding image bytes with PIL: actual pixel dimensions and the
color mode. -/
structure DecodedImage where
  width : Int
  height : Int
  mode : Str
deriving DecidableEq

/-- External library collaborators, threaded as pure functions: `md5Hex`
models `hashlib.md5(data).hexdigest()`, `pilOpen` models `PIL.Image.open`
(`none` when decoding raises), `b64decode` models `base64.b64decode`, and
`relpath` models `os.path.relpath` (`none` when it raises `ValueError`). -/
structure Ext where
  md5Hex : List Nat → Str
  pilOpen : List Nat → Option DecodedImage
  b64decode : Str → List Nat
  relpath : Str → Str → Option Str

/-- Entry of the image manifest log (`image_log` in the source); the same
record shape is returned by `ImageProcessor.save`. -/
structure LogEntry where
  filepath : Str
  filename : Str
  dimensions : Str
  source : Str
  hash : Str
deriving DecidableEq, Inhabited

/-- State owned by the `ImageProcessor`: the target directory, the set of
hashes processed in this run, the image manifest log, and the set of file
paths present on disk (the filesystem effect of `save`). -/
structure ImgState where
  imageDir : Str
  processedImages : List Str
  imageLog : List LogEntry
  files : List Str
deriving DecidableEq

/-- Model of `ImageProcessor.get_source`: first truthy source attribute
among `src`, `xlink:href`, namespaced `href`, `href`, `data-src`. -/
def getSource (tag : PNode) : Option Str :=
  pyOr (attrGet tag (str ("src")))
    (pyOr (attrGet tag (str ("xlink:href")))
      (pyOr (attrGet tag (str ("\x7bhttp://www.w3.org/1999/xlink\x7dhref")))
        (pyOr (attrGet tag (str ("href"))) (attrGet tag (str ("data-src"))))))

/-- Model of `ImageProcessor.get_dimensions`: read declared width/height
attributes (with SVG variants), parse each as `int(float(...))` after
removing a `px` suffix; a parse failure leaves that dimension `None`. -/
def getDimensions (tag : PNode) : Option Int × Option Int :=
  let width := pyOr (attrGet tag (str ("width")))
    (pyOr (attrGet tag (str ("data-width")))
      (attrGet tag (str ("\x7bhttp://www.w3.org/1999/xlink\x7dwidth"))))
  let height := pyOr (attrGet tag (str ("height")))
    (pyOr (attrGet tag (str ("data-height")))
      (attrGet tag (str ("\x7bhttp://www.w3.org/1999/xlink\x7dheight"))))
  let widthVal := match width with
    | some w => pyIntOfFloat (pyStrip (stripPx w))
    | none => none
  let heightVal := match height with
    | some h => pyIntOfFloat (pyStrip (stripPx h))
    | none => none
  (widthVal, heightVal)

/-- Model of `ImageProcessor.save`: dedup by content hash against the image
log, decode, filter small images, compute the deterministic filename, write
the file unless it already exists, and append a log entry for new hashes.
Returns the saved-image record (or `none`), the new state, and whether the
bytes were decoded on this call. -/
def ImageProcessor.save (ext : Ext) (cfg : ExtractorConfig) (st : ImgState)
    (imageData : List Nat) (sourceInfo : Str) (width height : Option Int) :
    Option LogEntry × ImgState × Bool :=
  let imageHash := ext.md5Hex imageData
  match st.imageLog.find? (fun l => l.hash == imageHash) with
  | some lg =>
      (some { filepath := lg.filepath, filename := lg.filename,
              dimensions := lg.dimensions, hash := imageHash,
              source := sourceInfo }, st, false)
  | none =>
    match ext.pilOpen imageData with
    | none => (none, st, true)
    | some img =>
      let actualWidth := match width with
        | some w => w
        | none => img.width
      let actualHeight := match height with
        | some h => h
        | none => img.height
      if actualWidth < cfg.minImageWidth || actualHeight < cfg.minImageHeight then
        (none, st, true)
      else
        let imgExtension :=
          if cfg.imageFormat ≠ str ("JPEG") then pyLower cfg.imageFormat
          else str ("jpg")
        let filename := imageHash ++ str ("_") ++ intToStr actualWidth ++
          str ("x") ++ intToStr actualHeight ++ str (".") ++ imgExtension
        let filepath := st.imageDir ++ str ("/") ++ filename
        let details : LogEntry :=
          { filepath := filepath, filename := filename,
            dimensions := intToStr actualWidth ++ str ("x") ++ intToStr actualHeight,
            source := sourceInfo, hash := imageHash }
        if filepath ∈ st.files then
          if imageHash ∈ st.processedImages then
            (some details, st, true)
          else
            let st₁ :=
              if imageHash ∈ st.processedImages then st
              else { st with imageLog := st.imageLog ++ [details],
                             processedImages := st.processedImages ++ [imageHash] }
            (some details, st₁, true)
        else
          let stW :=
            if img.mode = str ("RGBA") ∨ img.mode = str ("LA") ∨ img.mode = str ("P") then
              { st with files := st.files ++ [filepath] }
            else if img.mode = str ("CMYK") then
              { st with files := st.files ++ [filepath] }
            else
              { st with files := st.files ++ [filepath] }
          let st₁ :=
            if imageHash ∈ stW.processedImages then stW
            else { stW with imageLog := stW.imageLog ++ [details],
                            processedImages := stW.processedImages ++ [imageHash] }
          (some details, st₁, true)

/-- Model of `str(pathlib.PurePosixPath(s).parent)`. -/
def pyParent (s : Str) : Str :=
  let p := pyPathStr s
  let rooted := p.head? == some '/'
  let segs := (List.splitOn '/' p).filter (fun seg => !seg.isEmpty && seg ≠ ['.'])
  let segs' := segs.dropLast
  if segs'.isEmpty then (if rooted then str ("/") else str ("."))
  else (if rooted then str ("/") else []) ++ List.intercalate (str ("/")) segs'

/-- The relative-resolved form of an image reference: the reference joined
onto the containing document's directory, as `ContentProcessor.
extract_image_data` computes `absolute_href` (left unchanged for absolute
references or when there is no usable base). -/
def absoluteHref (href baseHref : Str) : Str :=
  if !baseHref.isEmpty &&
      !((str ("http://")).isPrefixOf href || (str ("https://")).isPrefixOf href ||
        (str ("/")).isPrefixOf href) then
    backslashToSlash (pyPathStr (pyParent baseHref ++ str ("/") ++ href))
  else href

/-- The ordered, deduplicated candidate list `extract_image_data` probes
against the manifest for a non-data-URI reference. -/
def candidateHrefs (href baseHref : Str) : List Str :=
  let absHref := absoluteHref href baseHref
  let decodedHref := pyUnquote absHref
  let potential := [decodedHref, absHref, href,
    pyLstrip (str ("../")) (pyLstrip (str ("./")) decodedHref),
    pyLstrip (str ("../")) (pyLstrip (str ("./")) absHref),
    pyLstrip (str ("../")) (pyLstrip (str ("./")) href)]
  let commonRoots := [str ("OEBPS"), str ("OPS"), str ("EPUB"), str ("Text"), str ("text")]
  let originalUnquoted := pyUnquote href
  let withRoots := potential ++ (commonRoots.flatMap (fun root =>
    [root ++ str ("/") ++ pyLstrip (str ("/")) originalUnquoted,
     root ++ str ("/") ++ pyLstrip (str ("/")) href]))
  dedupKeepFirst withRoots

/-- Return the content of the first candidate that resolves. -/
def firstResolvedContent (book : Book) : List Str → Option (List Nat)
  | [] => none
  | c :: rest =>
      match getItemWithHref book c with
      | some item => some item.bytes
      | none => firstResolvedContent book rest

/-- Model of `ContentProcessor.extract_image_data`: decode data URIs
directly, otherwise probe the candidate references in order against the
manifest; `none` when nothing resolves (the caller logs and moves on).  A
data URI without a comma raises `ValueError`, caught by the enclosing
handler, hence `none`. -/
def extractImageData (ext : Ext) (book : Book) (href : Str) (baseHref : Str) :
    Option (List Nat) :=
  if (str ("data:image")).isPrefixOf href then
    if ',' ∈ href then
      some (ext.b64decode ((href.dropWhile (fun c => c ≠ ',')).drop 1))
    else none
  else
    firstResolvedContent book (candidateHrefs href baseHref)

end EpubXml

namespace EpubXml

/-- Structured content item (`structured_content` entries in the source):
paragraphs (with optional heading role), images, and chapter-start
markers. -/
inductive Item where
  | paragraph (text : Str) (role : Option Str)
  | image (filepath filename alt : Str)
  | chapterStart (title href : Str)
deriving DecidableEq

/-- Tag names the walker treats as block-level (paragraph-breaking), as
listed in `process_tag_content`. -/
def blockTags : List Str :=
  [str ("p"), str ("h1"), str ("h2"), str ("h3"), str ("h4"), str ("h5"),
   str ("h6"), str ("div"), str ("section"), str ("article"), str ("main"),
   str ("figure"), str ("figcaption"), str ("blockquote"), str ("pre"),
   str ("ul"), str ("ol"), str ("li"), str ("dl"), str ("dt"), str ("dd"),
   str ("table"), str ("hr"), str ("header"), str ("footer"), str ("aside")]

/-- The six heading tag names. -/
def headingTags : List Str :=
  [str ("h1"), str ("h2"), str ("h3"), str ("h4"), str ("h5"), str ("h6")]

/-- Mark a paragraph with a heading role (`nested_item['role'] = tag_name`);
other items are left unchanged. -/
def setParagraphRole (nm : Str) : Item → Item
  | .paragraph t _ => .paragraph t (some nm)
  | it => it

/-- Model of the walker's `flush_text` helper: join the accumulated
fragments, strip, collapse internal whitespace runs to single spaces, and
append the result as a paragraph when non-empty. -/
def flushText (items : List Item) (frags : List Str) : List Item × List Str :=
  if frags.isEmpty then (items, frags)
  else
    let fullText := joinWords (pyWords (pyStrip frags.flatten))
    if fullText.isEmpty then (items, [])
    else (items ++ [Item.paragraph fullText none], [])

/-- Append an optional item (`if image_info := ...: items.append(...)`). -/
def appendOptItem (items : List Item) : Option Item → List Item
  | some it => items ++ [it]
  | none => items

/-- Model of `ContentProcessor.process_ruby`: reconstruct base text plus
phonetic gloss in parentheses, falling back to the tag's text. -/
def processRuby (tag : PNode) : Str :=
  if tagName tag == str ("ruby") then
    let base := findFirstByName tag (str ("rb"))
    let rt := findFirstByName tag (str ("rt"))
    let rpOpen :=
      match findFirstNode (fun n => tagName n == str ("rp") &&
          tagString n == some (str ("（"))) tag with
      | some n => some n
      | none => findFirstNode (fun n => tagName n == str ("rp") &&
          tagString n == some (str ("("))) tag
    let rpClose :=
      match findFirstNode (fun n => tagName n == str ("rp") &&
          tagString n == some (str ("）"))) tag with
      | some n => some n
      | none => findFirstNode (fun n => tagName n == str ("rp") &&
          tagString n == some (str (")"))) tag
    let baseText := match base with
      | some b => pyStrip (getText b)
      | none => []
    let rtText := match rt with
      | some r => pyStrip (getText r)
      | none => []
    if !baseText.isEmpty && !rtText.isEmpty then
      let openParen := if rpOpen.isSome then str ("（") else str ("(")
      let closeParen := if rpClose.isSome then str ("）") else str (")")
      baseText ++ openParen ++ rtText ++ closeParen
    else if !baseText.isEmpty then baseText
    else pyStrip (getText tag)
  else pyStrip (getText tag)

/-- Model of `ContentProcessor.process_image`: for an image-bearing tag,
resolve the source reference, save through the image store, and produce an
`Item.image` on success. -/
def processImage (ext : Ext) (book : Book) (cfg : ExtractorConfig)
    (tag : PNode) (context baseHref : Str) (st : ImgState) :
    Option Item × ImgState :=
  if tagName tag == str ("img") || tagName tag == str ("image") then
    match getSource tag with
    | some src =>
        if src.isEmpty then (none, st)
        else
          match extractImageData ext book src baseHref with
          | some imageData =>
              let dims := getDimensions tag
              let sourceInfo := str ("Context: ") ++ context ++
                str (", Source Tag: <") ++ tagName tag ++ str (" src='") ++ src ++
                str ("'> in doc '") ++ baseHref ++ str ("'")
              let r := ImageProcessor.save ext cfg st imageData sourceInfo dims.1 dims.2
              match r.1 with
              | some d =>
                  (some (Item.image d.filepath d.filename
                    (str ("Image from ") ++ context)), r.2.1)
              | none => (none, r.2.1)
          | none => (none, st)
    | none => (none, st)
  else (none, st)

/-- Process the `<image>` descendants of an `<svg>` element, appending an
item for each one the image store accepts. -/
def processSvgImages (ext : Ext) (book : Book) (cfg : ExtractorConfig)
    (context baseHref : Str) :
    List PNode → List Item → ImgState → List Item × ImgState
  | [], items, st => (items, st)
  | t :: rest, items, st =>
      let r := processImage ext book cfg t context baseHref st
      processSvgImages ext book cfg context baseHref rest (appendOptItem items r.1) r.2

/-- Splice the output of an inline/unknown child back into the current run:
paragraph text is merged into the fragment buffer, images are flushed out
immediately (text/image order preserved). -/
def mergeInline : List Item → List Item → List Str → List Item × List Str
  | [], items, frags => (items, frags)
  | .paragraph t _ :: rest, items, frags => mergeInline rest items (frags ++ [t])
  | .image fp fn alt :: rest, items, frags =>
      let f₁ := flushText items frags
      let f₂ := flushText (f₁.1 ++ [Item.image fp fn alt]) f₁.2
      mergeInline rest f₂.1 f₂.2
  | .chapterStart _ _ :: rest, items, frags => mergeInline rest items frags

mutual
/-- Model of `ContentProcessor.process_tag_content`: walk the tag's
children accumulating text fragments, flush at block boundaries, and return
the emitted items together with the updated image-store state. -/
def processTagContent (ext : Ext) (book : Book) (cfg : ExtractorConfig)
    (tag : PNode) (context baseHref : Str) (st : ImgState) :
    List Item × ImgState :=
  match tag with
  | .text _ => ([], st)
  | .elem _ _ children =>
      let r := processContents ext book cfg context baseHref children [] [] st
      let flushed := flushText r.1 r.2.1
      (flushed.1, r.2.2)

/-- The walker's loop over `tag.contents`, carrying the emitted items, the
fragment buffer, and the image-store state. -/
def processContents (ext : Ext) (book : Book) (cfg : ExtractorConfig)
    (context baseHref : Str) :
    List PNode → List Item → List Str → ImgState → List Item × List Str × ImgState
  | [], items, frags, st => (items, frags, st)
  | e :: rest, items, frags, st =>
      match e with
      | .text s =>
          processContents ext book cfg context baseHref rest items (frags ++ [s]) st
      | .elem nm _ _ =>
        if nm ∈ blockTags then
          let f₁ := flushText items frags
          if nm == str ("img") || nm == str ("image") then
            let r := processImage ext book cfg e (context ++ str (" > ") ++ nm) baseHref st
            let f₂ := flushText (appendOptItem f₁.1 r.1) f₁.2
            processContents ext book cfg context baseHref rest f₂.1 f₂.2 r.2
          else if nm == str ("svg") then
            let r := processSvgImages ext book cfg
              (context ++ str (" > ") ++ nm ++ str (" SVG")) baseHref
              (findAllByName e (str ("image"))) f₁.1 st
            let f₂ := flushText r.1 f₁.2
            processContents ext book cfg context baseHref rest f₂.1 f₂.2 r.2
          else
            let r := processTagContent ext book cfg e (context ++ str (" > ") ++ nm) baseHref st
            let nested := if nm ∈ headingTags then r.1.map (setParagraphRole nm) else r.1
            let f₂ := flushText (f₁.1 ++ nested) f₁.2
            processContents ext book cfg context baseHref rest f₂.1 f₂.2 r.2
        else if nm == str ("img") || nm == str ("image") then
          let f₁ := flushText items frags
          let r := processImage ext book cfg e context baseHref st
          let f₂ := flushText (appendOptItem f₁.1 r.1) f₁.2
          processContents ext book cfg context baseHref rest f₂.1 f₂.2 r.2
        else if nm == str ("svg") then
          let f₁ := flushText items frags
          let r := processSvgImages ext book cfg (context ++ str (" SVG")) baseHref
            (findAllByName e (str ("image"))) f₁.1 st
          let f₂ := flushText r.1 f₁.2
          processContents ext book cfg context baseHref rest f₂.1 f₂.2 r.2
        else if nm == str ("br") then
          let frags₁ := match frags.getLast? with
            | some lastF =>
                if !strEndsWith (pyStrip lastF) ' ' then frags ++ [str (" ")] else frags
            | none => frags
          processContents ext book cfg context baseHref rest items frags₁ st
        else if nm == str ("ruby") then
          processContents ext book cfg context baseHref rest items (frags ++ [processRuby e]) st
        else
          let r := processTagContent ext book cfg e (context ++ str (" > ") ++ nm) baseHref st
          let m := mergeInline r.1 items frags
          processContents ext book cfg context baseHref rest m.1 m.2 r.2
end

/-- Fold `process_tag_content` over the direct children of a document body,
extending the structured content. -/
def processDocChildren (ext : Ext) (book : Book) (cfg : ExtractorConfig)
    (baseHref : Str) :
    List PNode → List Item → ImgState → List Item × ImgState
  | [], items, st => (items, st)
  | t :: rest, items, st =>
      let r := processTagContent ext book cfg t
        (str ("Child <") ++ tagName t ++ str (">")) baseHref st
      processDocChildren ext book cfg baseHref rest (items ++ r.1) r.2

/-- Model of `ContentProcessor.process_document_item`: find the `<body>`
(documents without one are skipped with a warning), then walk either the
body itself (when it has no direct child tags) or each direct child tag in
turn. -/
def processDocumentItem (ext : Ext) (book : Book) (cfg : ExtractorConfig)
    (item : EpubItem) (st : ImgState) : List Item × ImgState :=
  let baseHref := pyUnquote item.name
  match findFirstByName item.doc (str ("body")) with
  | none => ([], st)
  | some body =>
      if (directChildTags body).isEmpty then
        processTagContent ext book cfg body (str ("Body Direct")) baseHref st
      else
        processDocChildren ext book cfg baseHref (directChildTags body) [] st

end EpubXml

namespace EpubXml

/-- The normalization applied to every extracted navigation reference and,
independently, to every spine document name: percent-decode, strip the
fragment, path-normalize, convert separators, strip leading `./` and `../`
characters. -/
def normalizeExtractedHref (s : Str) : Str :=
  pyLstrip (str ("../")) (pyLstrip (str ("./"))
    (backslashToSlash (pyPathStr (splitHash (pyUnquote s)))))

/-- Normalization of a navigation href: resolve against the navigation
document's base, then apply the shared normalization. -/
def normalizeNavHref (navBase raw : Str) : Str :=
  normalizeExtractedHref (pyUrljoin navBase raw)

/-- Normalization of a spine document's name in `process_content`. -/
def normalizeSpineName (name : Str) : Str := normalizeExtractedHref name

/-- Model of the NCX branch of `extract_chapters`: every `navPoint`
(flattened depth-first), its label text, and its normalized content
reference. -/
def parseNcxChapters (navBase : Str) (soup : PNode) : List (Str × Str) :=
  (findAllByName soup (str ("navPoint"))).foldl
    (fun chapters navPoint =>
      let title := match findFirstByName navPoint (str ("navLabel")) with
        | some nl =>
            match findFirstByName nl (str ("text")) with
            | some t => pyStrip (getText t)
            | none => str ("Điểm NCX không tên ") ++ natToStr (chapters.length + 1)
        | none => str ("Điểm NCX không tên ") ++ natToStr (chapters.length + 1)
      match findFirstByName navPoint (str ("content")) with
      | some contentTag =>
          match attrGet contentTag (str ("src")) with
          | some hrefRaw =>
              if hrefRaw.isEmpty then chapters
              else
                let normalized := normalizeNavHref navBase hrefRaw
                if normalized.isEmpty then chapters
                else chapters ++ [(normalized, title)]
          | none => chapters
      | none => chapters) []

/-- Model of the XHTML branch of `extract_chapters`: locate the navigation
container (`nav[epub:type=toc]`, else any `nav`, else `body`) and collect
its anchors, skipping empty and fragment-only hrefs. -/
def parseXhtmlChapters (navBase : Str) (soup : PNode) : List (Str × Str) :=
  let navContainer :=
    match findFirstNode (fun n => tagName n == str ("nav") &&
        attrGet n (str ("epub:type")) == some (str ("toc"))) soup with
    | some n => some n
    | none =>
        match findFirstByName soup (str ("nav")) with
        | some n => some n
        | none => findFirstByName soup (str ("body"))
  match navContainer with
  | none => []
  | some container =>
      (findAllNodes (fun n => tagName n == str ("a") &&
          (attrGet n (str ("href"))).isSome) container).foldl
        (fun chapters link =>
          let hrefRaw := (attrGet link (str ("href"))).getD []
          if hrefRaw.isEmpty || hrefRaw.head? == some '#' then chapters
          else
            let normalized := normalizeNavHref navBase hrefRaw
            if normalized.isEmpty then chapters
            else
              let joined := joinWords (strippedStrings link)
              let linkText :=
                if joined.isEmpty then
                  str ("Liên kết không tên ") ++ natToStr (chapters.length + 1)
                else joined
              chapters ++ [(normalized, linkText)]) []

/-- Model of `EPUBProcessor.extract_chapters`: prefer a manifest item with
the EPUB3 `nav` property, else the first navigation-control (NCX) item,
else give up with an empty chapter list. -/
def extractChapters (book : Book) : List (Str × Str) :=
  match book.items.find? (fun it => it.properties.contains (str ("nav"))) with
  | some navItem => parseXhtmlChapters (pyUnquote navItem.name) navItem.doc
  | none =>
      match (book.items.filter (fun it => it.itemType == ItemType.navigation)).head? with
      | some navItem => parseNcxChapters (pyUnquote navItem.name) navItem.doc
      | none => []

/-- Spine identifier resolution: by href first, then by id. -/
def getSpineItem (book : Book) (ident : Str) : Option EpubItem :=
  match getItemWithHref book ident with
  | some it => some it
  | none => getItemWithId book ident

/-- Accumulator of the assembler's spine pass: the structured content so
far, the normalized hrefs already processed, and the image-store state. -/
structure AssemblerAcc where
  content : List Item
  processed : List Str
  imgSt : ImgState
deriving DecidableEq

/-- Lookup in the chapter href→title dict; a later duplicate key wins, as
in the Python dict comprehension. -/
def dictLookup (chapters : List (Str × Str)) (key : Str) : Option Str :=
  ((chapters.filter (fun c => c.1 == key)).getLast?).map (fun c => c.2)

/-- One spine entry of `process_content`: resolve the identifier, skip
non-documents and already-processed documents, append a chapter-start
marker when the normalized name matches a navigation entry, then walk the
document. -/
def spineStep (ext : Ext) (book : Book) (cfg : ExtractorConfig)
    (chapters : List (Str × Str)) (acc : AssemblerAcc) (entry : Str × Str) :
    AssemblerAcc :=
  match getSpineItem book entry.1 with
  | none => acc
  | some item =>
      if item.itemType == ItemType.document then
        let normalized := normalizeSpineName item.name
        if normalized ∈ acc.processed then acc
        else
          let content₁ := match dictLookup chapters normalized with
            | some title => acc.content ++ [Item.chapterStart title normalized]
            | none => acc.content
          let r := processDocumentItem ext book cfg item acc.imgSt
          { content := content₁ ++ r.1,
            processed := acc.processed ++ [normalized],
            imgSt := r.2 }
      else acc

/-- The assembler's spine pass as a fold. -/
def processContentAux (ext : Ext) (book : Book) (cfg : ExtractorConfig)
    (chapters : List (Str × Str)) (spine : List (Str × Str))
    (acc : AssemblerAcc) : AssemblerAcc :=
  spine.foldl (spineStep ext book cfg chapters) acc

/-- Model of `EPUBProcessor.process_content`: fold the spine starting from
an empty structured-content list and visited set. -/
def processContent (ext : Ext) (book : Book) (cfg : ExtractorConfig)
    (chapters : List (Str × Str)) (st : ImgState) : List Item × ImgState :=
  let acc := processContentAux ext book cfg chapters book.spine
    { content := [], processed := [], imgSt := st }
  (acc.content, acc.imgSt)

/-- Child element of a `<chapter>` element in the output XML. -/
inductive XmlChild where
  | paragraphElem (id : Str) (role : Option Str) (text : Str)
  | imageElem (id : Str) (src : Str) (alt : Str)
deriving DecidableEq

/-- A `<chapter>` element of the output XML. -/
structure XmlChapter where
  id : Str
  title : Str
  children : List XmlChild
deriving DecidableEq

/-- State of the XML serialization pass: the chapter elements created so
far (the current chapter, when one exists, is the last) and the id
counters.  `current_chapter_element` is `None` exactly when no chapter has
been created yet. -/
structure XmlState where
  chapters : List XmlChapter
  chapterCount : Nat
  paragraphCount : Nat
  imageCount : Nat
deriving DecidableEq

/-- Append a child to the current (= last created) chapter element. -/
def appendToLastChapter (chs : List XmlChapter) (c : XmlChild) : List XmlChapter :=
  match chs.getLast? with
  | none => chs
  | some lastCh => chs.dropLast ++ [{ lastCh with children := lastCh.children ++ [c] }]

/-- One structured item of `save_results_xml`: chapter starts open a new
`<chapter>`; paragraphs and images are emitted into the current chapter and
are skipped (with a warning) when no chapter exists yet. -/
def xmlStep (ext : Ext) (cfg : ExtractorConfig) (st : XmlState) (item : Item) :
    XmlState :=
  match item with
  | .chapterStart title _ =>
      let n := st.chapterCount + 1
      { st with
        chapters := st.chapters ++
          [{ id := str ("ch") ++ natToStr n, title := title, children := [] }],
        chapterCount := n }
  | .paragraph text role =>
      if st.chapters.isEmpty then st
      else
        let n := st.paragraphCount + 1
        { st with
          chapters := appendToLastChapter st.chapters
            (XmlChild.paragraphElem (str ("p") ++ natToStr n) role text),
          paragraphCount := n }
  | .image fp fn alt =>
      if st.chapters.isEmpty then st
      else
        let n := st.imageCount + 1
        let src := match ext.relpath fp cfg.outputDir with
          | some rel => backslashToSlash rel
          | none => cfg.imageDirName ++ str ("/") ++ fn
        { st with
          chapters := appendToLastChapter st.chapters
            (XmlChild.imageElem (str ("img") ++ natToStr n) src alt),
          imageCount := n }

/-- Model of `EPUBProcessor.save_results_xml`: fold the structured content
into the chapter-element list of the output document. -/
def saveResultsXml (ext : Ext) (cfg : ExtractorConfig) (content : List Item) :
    List XmlChapter :=
  (content.foldl (xmlStep ext cfg)
    { chapters := [], chapterCount := 0, paragraphCount := 0, imageCount := 0 }).chapters

/-- Model of `EPUBProcessor.process` for a book the container layer opened
successfully: extract chapters, walk the spine, serialize; the fatal
failure modes (unreadable container) live in the excluded layer. -/
def process (ext : Ext) (book : Book) (cfg : ExtractorConfig) (st : ImgState) :
    Bool × List Item × List XmlChapter :=
  let chapters := extractChapters book
  let r := processContent ext book cfg chapters st
  (true, r.1, saveResultsXml ext cfg r.1)

end EpubXml

namespace EpubXml

theorem pyWordsAux_sound (l : Str) :
    ∀ acc, (∀ c ∈ acc, isPyWs c = false) →
      ∀ w ∈ pyWordsAux l acc, w ≠ [] ∧ ∀ c ∈ w, isPyWs c = false := by
  induction l with
  | nil =>
      intro acc hacc w hw
      simp only [pyWordsAux] at hw
      split at hw
      · simp at hw
      · rename_i hne
        simp only [List.mem_singleton] at hw
        subst hw
        refine ⟨?_, ?_⟩
        · have hne2 : acc ≠ [] := by simpa using hne
          simpa using hne2
        · intro c hc
          exact hacc c (List.mem_reverse.mp hc)
  | cons a l ih =>
      intro acc hacc w hw
      simp only [pyWordsAux] at hw
      by_cases hws : isPyWs a
      · rw [if_pos hws] at hw
        split at hw
        · exact ih [] (by simp) w hw
        · rename_i hne
          rcases List.mem_cons.mp hw with h | h
          · subst h
            refine ⟨?_, ?_⟩
            · have hne2 : acc ≠ [] := by simpa using hne
              simpa using hne2
            · intro c hc
              exact hacc c (List.mem_reverse.mp hc)
          · exact ih [] (by simp) w h
      · rw [if_neg hws] at hw
        refine ih (a :: acc) ?_ w hw
        intro c hc
        rcases List.mem_cons.mp hc with h | h
        · subst h
          exact Bool.eq_false_iff.mpr hws
        · exact hacc c h

theorem pyWords_sound (s : Str) :
    ∀ w ∈ pyWords s, w ≠ [] ∧ ∀ c ∈ w, isPyWs c = false :=
  pyWordsAux_sound s [] (by simp)

theorem noDoubleWs_of_allNonWs (s : Str) (h : ∀ c ∈ s, isPyWs c = false) :
    noDoubleWs s = true := by
  induction s with
  | nil => rfl
  | cons a l ih =>
      cases l with
      | nil => rfl
      | cons b l' =>
          simp only [noDoubleWs, Bool.and_eq_true, Bool.not_eq_true']
          refine ⟨?_, ih ?_⟩
          · simp [h a (by simp)]
          · intro c hc
            exact h c (List.mem_cons_of_mem _ hc)

theorem noDoubleWs_append (xs ys : Str) (hxs : noDoubleWs xs = true)
    (hys : noDoubleWs ys = true)
    (hmid : ∀ a b, xs.getLast? = some a → ys.head? = some b →
      (isPyWs a && isPyWs b) = false) :
    noDoubleWs (xs ++ ys) = true := by
  induction xs with
  | nil => simpa using hys
  | cons a xs ih =>
      cases xs with
      | nil =>
          cases ys with
          | nil => rfl
          | cons b ys' =>
              simp only [List.singleton_append, noDoubleWs, Bool.and_eq_true]
              refine ⟨?_, hys⟩
              have := hmid a b (by rfl) (by rfl)
              simp [this]
      | cons a' xs' =>
          simp only [List.cons_append, noDoubleWs, Bool.and_eq_true] at *
          refine ⟨hxs.1, ?_⟩
          refine ih hxs.2 ?_
          intro p q hp hq
          refine hmid p q ?_ hq
          rw [List.getLast?_cons_cons]
          exact hp

theorem joinWords_ne_nil (w : Str) (ws : List Str) (hw : w ≠ []) :
    joinWords (w :: ws) ≠ [] := by
  cases ws with
  | nil => simpa [joinWords] using hw
  | cons w' ws' =>
      simp only [joinWords]
      intro h
      exact hw (List.append_eq_nil.mp h).1

theorem textNormalized_joinWords (ws : List Str)
    (h : ∀ w ∈ ws, w ≠ [] ∧ ∀ c ∈ w, isPyWs c = false) (hne : ws ≠ []) :
    textNormalized (joinWords ws) = true := by
  induction ws with
  | nil => exact absurd rfl hne
  | cons w ws ih =>
      obtain ⟨hw, hwc⟩ := h w (by simp)
      cases ws with
      | nil =>
          simp only [joinWords, textNormalized, Bool.and_eq_true]
          refine ⟨⟨⟨?_, ?_⟩, ?_⟩, noDoubleWs_of_allNonWs w hwc⟩
          · simp only [Bool.not_eq_true', List.isEmpty_eq_false]
            exact hw
          · cases hww : w.head? with
            | none => simp
            | some c =>
                simp only [Bool.not_eq_true']
                exact hwc c (List.mem_of_mem_head? (by simp [hww]))
          · cases hww : w.getLast? with
            | none => simp
            | some c =>
                simp only [Bool.not_eq_true']
                exact hwc c (List.mem_of_mem_getLast? (by simp [hww]))
      | cons w' ws' =>
          have hrest := ih (fun x hx => h x (List.mem_cons_of_mem _ hx)) (by simp)
          have hjoin_ne : joinWords (w' :: ws') ≠ [] :=
            joinWords_ne_nil w' ws' (h w' (by simp)).1
          have hj : joinWords (w :: w' :: ws') = w ++ ' ' :: joinWords (w' :: ws') := rfl
          obtain ⟨d, J, hJ⟩ : ∃ d J, joinWords (w' :: ws') = d :: J := by
            cases hjw : joinWords (w' :: ws') with
            | nil => exact absurd hjw hjoin_ne
            | cons d J => exact ⟨d, J, rfl⟩
          simp only [textNormalized, Bool.and_eq_true] at hrest ⊢
          obtain ⟨⟨⟨hrne, hrhead⟩, hrlast⟩, hrdw⟩ := hrest
          refine ⟨⟨⟨?_, ?_⟩, ?_⟩, ?_⟩
          · rw [hj]
            simp only [Bool.not_eq_true', List.isEmpty_eq_false]
            simp [hw]
          · rw [hj]
            cases w with
            | nil => exact absurd rfl hw
            | cons c w2 =>
                simp only [List.cons_append, List.head?_cons, Bool.not_eq_true']
                exact hwc c (by simp)
          · rw [hj, hJ]
            have hlast_eq : (w ++ ' ' :: d :: J).getLast? = (d :: J).getLast? := by
              rw [List.getLast?_append]
              rw [List.getLast?_cons_cons]
              cases hdj : (d :: J).getLast? with
              | none => simp at hdj
              | some c => simp
            rw [hlast_eq]
            rw [hJ] at hrlast
            exact hrlast
          · rw [hj]
            refine noDoubleWs_append _ _ (noDoubleWs_of_allNonWs w hwc) ?_ ?_
            · rw [hJ]
              rw [hJ] at hrdw hrhead
              simp only [noDoubleWs, Bool.and_eq_true]
              refine ⟨?_, hrdw⟩
              simp only [List.head?_cons, Option.some.injEq] at hrhead
              simp only [Bool.not_eq_true'] at hrhead
              simp [hrhead]
            · intro p q hp hq
              simp only [List.head?_cons, Option.some.injEq] at hq
              subst hq
              have := hwc p (List.mem_of_mem_getLast? (by simp [hp]))
              simp [this]

theorem flushText_mem (items : List Item) (frags : List Str) (it : Item)
    (h : it ∈ (flushText items frags).1) :
    it ∈ items ∨ ∃ t, it = .paragraph t none ∧ textNormalized t = true := by
  simp only [flushText] at h
  split at h
  · exact Or.inl h
  · split at h
    · exact Or.inl h
    · rename_i hne
      rcases List.mem_append.mp h with h2 | h2
      · exact Or.inl h2
      · right
        refine ⟨_, List.mem_singleton.mp h2, ?_⟩
        refine textNormalized_joinWords _ (pyWords_sound _) ?_
        intro hnil
        rw [hnil] at hne
        exact hne rfl

end EpubXml

namespace EpubXml

theorem flushText_pred (P : Item → Prop)
    (hpara : ∀ t, textNormalized t = true → P (.paragraph t none))
    (items : List Item) (frags : List Str) (hacc : ∀ it ∈ items, P it) :
    ∀ it ∈ (flushText items frags).1, P it := by
  intro it h
  rcases flushText_mem items frags it h with h1 | ⟨t, rfl, ht⟩
  · exact hacc it h1
  · exact hpara t ht

theorem processImage_shape (ext : Ext) (book : Book) (cfg : ExtractorConfig)
    (tag : PNode) (context baseHref : Str) (st : ImgState) (it : Item)
    (h : (processImage ext book cfg tag context baseHref st).1 = some it) :
    ∃ fp fn alt, it = .image fp fn alt := by
  simp only [processImage] at h
  repeat' split at h
  all_goals simp_all
  exact ⟨_, _, _, h.symm⟩

theorem appendOptItem_mem (items : List Item) (o : Option Item) (it : Item)
    (h : it ∈ appendOptItem items o) : it ∈ items ∨ o = some it := by
  cases o with
  | none => exact Or.inl h
  | some x =>
      rcases List.mem_append.mp h with h1 | h1
      · exact Or.inl h1
      · exact Or.inr (by rw [List.mem_singleton.mp h1])

theorem processSvgImages_pred (P : Item → Prop)
    (himg : ∀ fp fn alt, P (.image fp fn alt))
    (ext : Ext) (book : Book) (cfg : ExtractorConfig) (context baseHref : Str)
    (ts : List PNode) :
    ∀ (items : List Item) (st : ImgState), (∀ it ∈ items, P it) →
      ∀ it ∈ (processSvgImages ext book cfg context baseHref ts items st).1, P it := by
  induction ts with
  | nil =>
      intro items st hacc it h
      exact hacc it (by simpa [processSvgImages] using h)
  | cons t rest ih =>
      intro items st hacc it h
      simp only [processSvgImages] at h
      refine ih _ _ ?_ it h
      intro x hx
      rcases appendOptItem_mem _ _ _ hx with h1 | h1
      · exact hacc x h1
      · obtain ⟨fp, fn, alt, rfl⟩ :=
          processImage_shape ext book cfg t context baseHref st x h1
        exact himg fp fn alt

theorem mergeInline_pred (P : Item → Prop)
    (hpara : ∀ t, textNormalized t = true → P (.paragraph t none))
    (himg : ∀ fp fn alt, P (.image fp fn alt))
    (inner : List Item) :
    ∀ (items : List Item) (frags : List Str), (∀ it ∈ items, P it) →
      ∀ it ∈ (mergeInline inner items frags).1, P it := by
  induction inner with
  | nil =>
      intro items frags hacc it h
      exact hacc it (by simpa [mergeInline] using h)
  | cons x rest ih =>
      intro items frags hacc it h
      cases x with
      | paragraph t r =>
          simp only [mergeInline] at h
          exact ih items _ hacc it h
      | image fp fn alt =>
          simp only [mergeInline] at h
          refine ih _ _ ?_ it h
          intro y hy
          refine flushText_pred P hpara _ _ ?_ y hy
          intro z hz
          rcases List.mem_append.mp hz with h1 | h1
          · exact flushText_pred P hpara items frags hacc z h1
          · rw [List.mem_singleton.mp h1]
            exact himg fp fn alt
      | chapterStart t h2 =>
          simp only [mergeInline] at h
          exact ih items frags hacc it h

theorem setParagraphRole_pred (P : Item → Prop)
    (hrole : ∀ t r nm, P (.paragraph t r) → P (.paragraph t (some nm)))
    (nm : Str) (it : Item) (h : P it) : P (setParagraphRole nm it) := by
  cases it with
  | paragraph t r => exact hrole t r nm h
  | image fp fn alt => exact h
  | chapterStart t hr => exact h

mutual
theorem processTagContent_pred (P : Item → Prop)
    (hpara : ∀ t, textNormalized t = true → P (.paragraph t none))
    (himg : ∀ fp fn alt, P (.image fp fn alt))
    (hrole : ∀ t r nm, P (.paragraph t r) → P (.paragraph t (some nm)))
    (ext : Ext) (book : Book) (cfg : ExtractorConfig) (tag : PNode)
    (context baseHref : Str) (st : ImgState) :
    ∀ it ∈ (processTagContent ext book cfg tag context baseHref st).1, P it := by
  cases tag with
  | text s =>
      intro it h
      simp [processTagContent] at h
  | elem nm attrs children =>
      intro it h
      simp only [processTagContent] at h
      refine flushText_pred P hpara _ _ ?_ it h
      exact processContents_pred P hpara himg hrole ext book cfg context baseHref
        children [] [] st (by simp)

theorem processContents_pred (P : Item → Prop)
    (hpara : ∀ t, textNormalized t = true → P (.paragraph t none))
    (himg : ∀ fp fn alt, P (.image fp fn alt))
    (hrole : ∀ t r nm, P (.paragraph t r) → P (.paragraph t (some nm)))
    (ext : Ext) (book : Book) (cfg : ExtractorConfig) (context baseHref : Str)
    (elems : List PNode) :
    ∀ (items : List Item) (frags : List Str) (st : ImgState),
      (∀ it ∈ items, P it) →
      ∀ it ∈ (processContents ext book cfg context baseHref elems items frags st).1,
        P it := by
  cases elems with
  | nil =>
      intro items frags st hacc it h
      exact hacc it (by simpa [processContents] using h)
  | cons e rest =>
      cases e with
      | text s =>
          intro items frags st hacc it h
          simp only [processContents] at h
          exact processContents_pred P hpara himg hrole ext book cfg context baseHref
            rest items _ st hacc it h
      | elem nm attrs children =>
          intro items frags st hacc it h
          simp only [processContents] at h
          have himgstep : ∀ (ctx2 : Str) (st2 : ImgState),
              ∀ x ∈ (flushText (appendOptItem (flushText items frags).1
                (processImage ext book cfg (PNode.elem nm attrs children) ctx2 baseHref st2).1)
                (flushText items frags).2).1, P x := by
            intro ctx2 st2 x hx
            refine flushText_pred P hpara _ _ ?_ x hx
            intro y hy
            rcases appendOptItem_mem _ _ _ hy with h1 | h1
            · exact flushText_pred P hpara items frags hacc y h1
            · obtain ⟨fp, fn, alt, rfl⟩ := processImage_shape ext book cfg _ ctx2 baseHref st2 y h1
              exact himg fp fn alt
          have hsvgstep : ∀ (ctx2 : Str) (st2 : ImgState),
              ∀ x ∈ (flushText (processSvgImages ext book cfg ctx2 baseHref
                (findAllByName (PNode.elem nm attrs children) (str ("image")))
                (flushText items frags).1 st2).1 (flushText items frags).2).1, P x := by
            intro ctx2 st2 x hx
            refine flushText_pred P hpara _ _ ?_ x hx
            exact processSvgImages_pred P himg ext book cfg ctx2 baseHref _ _ _
              (flushText_pred P hpara items frags hacc)
          by_cases hblock : nm ∈ blockTags
          · rw [if_pos hblock] at h
            by_cases hit : (nm == str ("img") || nm == str ("image")) = true
            · rw [if_pos hit] at h
              exact processContents_pred P hpara himg hrole ext book cfg context baseHref
                rest _ _ _ (himgstep _ _) it h
            · rw [if_neg hit] at h
              by_cases hsvg : (nm == str ("svg")) = true
              · rw [if_pos hsvg] at h
                exact processContents_pred P hpara himg hrole ext book cfg context baseHref
                  rest _ _ _ (hsvgstep _ _) it h
              · rw [if_neg hsvg] at h
                have hnested : ∀ x ∈ (if nm ∈ headingTags then
                    ((processTagContent ext book cfg (PNode.elem nm attrs children)
                      (context ++ str (" > ") ++ nm) baseHref st).1.map (setParagraphRole nm))
                    else (processTagContent ext book cfg (PNode.elem nm attrs children)
                      (context ++ str (" > ") ++ nm) baseHref st).1), P x := by
                  intro x hx
                  by_cases hh : nm ∈ headingTags
                  · rw [if_pos hh] at hx
                    obtain ⟨y, hy, rfl⟩ := List.mem_map.mp hx
                    refine setParagraphRole_pred P hrole nm y ?_
                    exact processTagContent_pred P hpara himg hrole ext book cfg _ _ _ _ y hy
                  · rw [if_neg hh] at hx
                    exact processTagContent_pred P hpara himg hrole ext book cfg _ _ _ _ x hx
                refine processContents_pred P hpara himg hrole ext book cfg context baseHref
                  rest _ _ _ ?_ it h
                intro x hx
                refine flushText_pred P hpara _ _ ?_ x hx
                intro y hy
                rcases List.mem_append.mp hy with h1 | h1
                · exact flushText_pred P hpara items frags hacc y h1
                · exact hnested y h1
          · rw [if_neg hblock] at h
            by_cases hit : (nm == str ("img") || nm == str ("image")) = true
            · rw [if_pos hit] at h
              exact processContents_pred P hpara himg hrole ext book cfg context baseHref
                rest _ _ _ (himgstep _ _) it h
            · rw [if_neg hit] at h
              by_cases hsvg : (nm == str ("svg")) = true
              · rw [if_pos hsvg] at h
                exact processContents_pred P hpara himg hrole ext book cfg context baseHref
                  rest _ _ _ (hsvgstep _ _) it h
              · rw [if_neg hsvg] at h
                by_cases hbr : (nm == str ("br")) = true
                · rw [if_pos hbr] at h
                  exact processContents_pred P hpara himg hrole ext book cfg context baseHref
                    rest items _ st hacc it h
                · rw [if_neg hbr] at h
                  by_cases hruby : (nm == str ("ruby")) = true
                  · rw [if_pos hruby] at h
                    exact processContents_pred P hpara himg hrole ext book cfg context baseHref
                      rest items _ st hacc it h
                  · rw [if_neg hruby] at h
                    refine processContents_pred P hpara himg hrole ext book cfg context baseHref
                      rest _ _ _ ?_ it h
                    exact mergeInline_pred P hpara himg _ items frags hacc
end

end EpubXml

namespace EpubXml

mutual
/-- A markup node containing no heading element anywhere (itself included). -/
def noHeadingNode : PNode → Bool
  | .text _ => true
  | .elem nm _ cs => (if nm ∈ headingTags then false else true) && noHeadingList cs

/-- List version of `noHeadingNode`. -/
def noHeadingList : List PNode → Bool
  | [] => true
  | c :: rest => noHeadingNode c && noHeadingList rest
end

/-- An item that carries no heading role (vacuously true for non-paragraph
items). -/
def roleFree (it : Item) : Prop := ∀ t r, it = Item.paragraph t r → r = none

theorem roleFree_para (t : Str) (h : textNormalized t = true) :
    roleFree (.paragraph t none) := by
  intro t' r' he
  cases he
  rfl

theorem roleFree_img (fp fn alt : Str) : roleFree (.image fp fn alt) := by
  intro t' r' he
  cases he

mutual
theorem processTagContent_norole (ext : Ext) (book : Book) (cfg : ExtractorConfig)
    (tag : PNode) (context baseHref : Str) (st : ImgState)
    (hnh : noHeadingNode tag = true) :
    ∀ it ∈ (processTagContent ext book cfg tag context baseHref st).1, roleFree it := by
  cases tag with
  | text s =>
      intro it h
      simp [processTagContent] at h
  | elem nm attrs children =>
      intro it h
      simp only [processTagContent] at h
      refine flushText_pred roleFree roleFree_para _ _ ?_ it h
      refine processContents_norole ext book cfg context baseHref children [] [] st
        ?_ (by simp)
      simp only [noHeadingNode, Bool.and_eq_true] at hnh
      exact hnh.2

theorem processContents_norole (ext : Ext) (book : Book) (cfg : ExtractorConfig)
    (context baseHref : Str) (elems : List PNode) :
    ∀ (items : List Item) (frags : List Str) (st : ImgState),
      noHeadingList elems = true →
      (∀ it ∈ items, roleFree it) →
      ∀ it ∈ (processContents ext book cfg context baseHref elems items frags st).1,
        roleFree it := by
  cases elems with
  | nil =>
      intro items frags st hnh hacc it h
      exact hacc it (by simpa [processContents] using h)
  | cons e rest =>
      cases e with
      | text s =>
          intro items frags st hnh hacc it h
          simp only [noHeadingList, noHeadingNode, Bool.and_eq_true] at hnh
          simp only [processContents] at h
          exact processContents_norole ext book cfg context baseHref rest
            items _ st hnh.2 hacc it h
      | elem nm attrs children =>
          intro items frags st hnh hacc it h
          simp only [noHeadingList, noHeadingNode, Bool.and_eq_true] at hnh
          obtain ⟨⟨hnm, hcs⟩, hrest⟩ := hnh
          have hnm' : nm ∉ headingTags := by
            intro hmem
            rw [if_pos hmem] at hnm
            exact Bool.false_ne_true hnm
          simp only [processContents] at h
          have himgstep : ∀ (ctx2 : Str) (st2 : ImgState),
              ∀ x ∈ (flushText (appendOptItem (flushText items frags).1
                (processImage ext book cfg (PNode.elem nm attrs children) ctx2 baseHref st2).1)
                (flushText items frags).2).1, roleFree x := by
            intro ctx2 st2 x hx
            refine flushText_pred roleFree roleFree_para _ _ ?_ x hx
            intro y hy
            rcases appendOptItem_mem _ _ _ hy with h1 | h1
            · exact flushText_pred roleFree roleFree_para items frags hacc y h1
            · obtain ⟨fp, fn, alt, rfl⟩ :=
                processImage_shape ext book cfg _ ctx2 baseHref st2 y h1
              exact roleFree_img fp fn alt
          have hsvgstep : ∀ (ctx2 : Str) (st2 : ImgState),
              ∀ x ∈ (flushText (processSvgImages ext book cfg ctx2 baseHref
                (findAllByName (PNode.elem nm attrs children) (str ("image")))
                (flushText items frags).1 st2).1 (flushText items frags).2).1,
                roleFree x := by
            intro ctx2 st2 x hx
            refine flushText_pred roleFree roleFree_para _ _ ?_ x hx
            exact processSvgImages_pred roleFree roleFree_img ext book cfg ctx2 baseHref _ _ _
              (flushText_pred roleFree roleFree_para items frags hacc)
          by_cases hblock : nm ∈ blockTags
          · rw [if_pos hblock] at h
            by_cases hit : (nm == str ("img") || nm == str ("image")) = true
            · rw [if_pos hit] at h
              exact processContents_norole ext book cfg context baseHref rest
                _ _ _ hrest (himgstep _ _) it h
            · rw [if_neg hit] at h
              by_cases hsvg : (nm == str ("svg")) = true
              · rw [if_pos hsvg] at h
                exact processContents_norole ext book cfg context baseHref rest
                  _ _ _ hrest (hsvgstep _ _) it h
              · rw [if_neg hsvg] at h
                rw [if_neg hnm'] at h
                refine processContents_norole ext book cfg context baseHref rest
                  _ _ _ hrest ?_ it h
                intro x hx
                refine flushText_pred roleFree roleFree_para _ _ ?_ x hx
                intro y hy
                rcases List.mem_append.mp hy with h1 | h1
                · exact flushText_pred roleFree roleFree_para items frags hacc y h1
                · refine processTagContent_norole ext book cfg _ _ _ _ ?_ y h1
                  simp only [noHeadingNode, Bool.and_eq_true]
                  exact ⟨by rw [if_neg hnm'], hcs⟩
          · rw [if_neg hblock] at h
            by_cases hit : (nm == str ("img") || nm == str ("image")) = true
            · rw [if_pos hit] at h
              exact processContents_norole ext book cfg context baseHref rest
                _ _ _ hrest (himgstep _ _) it h
            · rw [if_neg hit] at h
              by_cases hsvg : (nm == str ("svg")) = true
              · rw [if_pos hsvg] at h
                exact processContents_norole ext book cfg context baseHref rest
                  _ _ _ hrest (hsvgstep _ _) it h
              · rw [if_neg hsvg] at h
                by_cases hbr : (nm == str ("br")) = true
                · rw [if_pos hbr] at h
                  exact processContents_norole ext book cfg context baseHref rest
                    items _ st hrest hacc it h
                · rw [if_neg hbr] at h
                  by_cases hruby : (nm == str ("ruby")) = true
                  · rw [if_pos hruby] at h
                    exact processContents_norole ext book cfg context baseHref rest
                      items _ st hrest hacc it h
                  · rw [if_neg hruby] at h
                    refine processContents_norole ext book cfg context baseHref rest
                      _ _ _ hrest ?_ it h
                    exact mergeInline_pred roleFree roleFree_para roleFree_img _
                      items frags hacc
end

/-- Chapter-start recognizer. -/
def isChapterStart : Item → Bool
  | .chapterStart _ _ => true
  | _ => false

theorem processDocChildren_pred (P : Item → Prop)
    (hpara : ∀ t, textNormalized t = true → P (.paragraph t none))
    (himg : ∀ fp fn alt, P (.image fp fn alt))
    (hrole : ∀ t r nm, P (.paragraph t r) → P (.paragraph t (some nm)))
    (ext : Ext) (book : Book) (cfg : ExtractorConfig) (baseHref : Str)
    (ts : List PNode) :
    ∀ (items : List Item) (st : ImgState), (∀ it ∈ items, P it) →
      ∀ it ∈ (processDocChildren ext book cfg baseHref ts items st).1, P it := by
  induction ts with
  | nil =>
      intro items st hacc it h
      exact hacc it (by simpa [processDocChildren] using h)
  | cons t rest ih =>
      intro items st hacc it h
      simp only [processDocChildren] at h
      refine ih _ _ ?_ it h
      intro x hx
      rcases List.mem_append.mp hx with h1 | h1
      · exact hacc x h1
      · exact processTagContent_pred P hpara himg hrole ext book cfg _ _ _ _ x h1

theorem processDocumentItem_pred (P : Item → Prop)
    (hpara : ∀ t, textNormalized t = true → P (.paragraph t none))
    (himg : ∀ fp fn alt, P (.image fp fn alt))
    (hrole : ∀ t r nm, P (.paragraph t r) → P (.paragraph t (some nm)))
    (ext : Ext) (book : Book) (cfg : ExtractorConfig) (item : EpubItem)
    (st : ImgState) :
    ∀ it ∈ (processDocumentItem ext book cfg item st).1, P it := by
  intro it h
  simp only [processDocumentItem] at h
  split at h
  · simp at h
  · split at h
    · exact processTagContent_pred P hpara himg hrole ext book cfg _ _ _ _ it h
    · exact processDocChildren_pred P hpara himg hrole ext book cfg _ _ _ _ (by simp) it h

end EpubXml

namespace EpubXml

theorem spineStep_processed_mono (ext : Ext) (book : Book) (cfg : ExtractorConfig)
    (chapters : List (Str × Str)) (acc : AssemblerAcc) (entry : Str × Str) :
    ∀ x ∈ acc.processed, x ∈ (spineStep ext book cfg chapters acc entry).processed := by
  intro x hx
  simp only [spineStep]
  split
  · exact hx
  · split
    · split
      · exact hx
      · split
        · simp only [List.mem_append]
          exact Or.inl hx
        · simp only [List.mem_append]
          exact Or.inl hx
    · exact hx

theorem processContentAux_processed_mono (ext : Ext) (book : Book)
    (cfg : ExtractorConfig) (chapters : List (Str × Str)) (spine : List (Str × Str)) :
    ∀ (acc : AssemblerAcc), ∀ x ∈ acc.processed,
      x ∈ (processContentAux ext book cfg chapters spine acc).processed := by
  induction spine with
  | nil =>
      intro acc x hx
      simpa [processContentAux] using hx
  | cons entry rest ih =>
      intro acc x hx
      simp only [processContentAux, List.foldl_cons] at *
      exact ih _ x (spineStep_processed_mono ext book cfg chapters acc entry x hx)

theorem mem_processed_after (ext : Ext) (book : Book) (cfg : ExtractorConfig)
    (chapters : List (Str × Str)) (x : Str × Str) (item : EpubItem)
    (hres : getSpineItem book x.1 = some item)
    (hdoc : item.itemType = ItemType.document) :
    ∀ (pre : List (Str × Str)) (acc : AssemblerAcc), x ∈ pre →
      normalizeSpineName item.name ∈
        (processContentAux ext book cfg chapters pre acc).processed := by
  intro pre
  induction pre with
  | nil =>
      intro acc hx
      simp at hx
  | cons y rest ih =>
      intro acc hx
      simp only [processContentAux, List.foldl_cons]
      rcases List.mem_cons.mp hx with h1 | h1
      · subst h1
        refine processContentAux_processed_mono ext book cfg chapters rest _ _ ?_
        simp only [spineStep, hres, hdoc]
        by_cases hmem : normalizeSpineName item.name ∈ acc.processed
        · simp only [if_pos hmem]
          simpa using hmem
        · simp only [if_neg hmem]
          simp
      · exact ih _ h1

theorem spineStep_skip_processed (ext : Ext) (book : Book) (cfg : ExtractorConfig)
    (chapters : List (Str × Str)) (acc : AssemblerAcc) (x : Str × Str)
    (item : EpubItem) (hres : getSpineItem book x.1 = some item)
    (hdoc : item.itemType = ItemType.document)
    (hmem : normalizeSpineName item.name ∈ acc.processed) :
    spineStep ext book cfg chapters acc x = acc := by
  simp [spineStep, hres, hdoc, hmem]

theorem spineStep_skip_nondoc (ext : Ext) (book : Book) (cfg : ExtractorConfig)
    (chapters : List (Str × Str)) (acc : AssemblerAcc) (x : Str × Str)
    (item : EpubItem) (hres : getSpineItem book x.1 = some item)
    (hnd : item.itemType ≠ ItemType.document) :
    spineStep ext book cfg chapters acc x = acc := by
  simp only [spineStep, hres]
  rw [if_neg]
  simp only [beq_iff_eq]
  exact hnd

theorem spineStep_skip_unresolved (ext : Ext) (book : Book) (cfg : ExtractorConfig)
    (chapters : List (Str × Str)) (acc : AssemblerAcc) (x : Str × Str)
    (hres : getSpineItem book x.1 = none) :
    spineStep ext book cfg chapters acc x = acc := by
  simp [spineStep, hres]

theorem xmlStep_orphan (ext : Ext) (cfg : ExtractorConfig) (st : XmlState)
    (item : Item) (hcs : isChapterStart item = false) (hch : st.chapters = []) :
    xmlStep ext cfg st item = st := by
  cases item with
  | paragraph t r => simp [xmlStep, hch]
  | image fp fn alt => simp [xmlStep, hch]
  | chapterStart t h => simp [isChapterStart] at hcs

/-- The spec's reading of the no-navigation degraded run: the spine pass
with the chapter-marker branch removed — every document still walked, no
`ChapterStart` emitted.  Comparison definition for the graceful-degradation
claim. -/
def docOnlyStep (ext : Ext) (book : Book) (cfg : ExtractorConfig)
    (acc : AssemblerAcc) (entry : Str × Str) : AssemblerAcc :=
  match getSpineItem book entry.1 with
  | none => acc
  | some item =>
      if item.itemType == ItemType.document then
        let normalized := normalizeSpineName item.name
        if normalized ∈ acc.processed then acc
        else
          let r := processDocumentItem ext book cfg item acc.imgSt
          { content := acc.content ++ r.1,
            processed := acc.processed ++ [normalized],
            imgSt := r.2 }
      else acc

/-- All extracted content of the book, without chapter markers (the spine
fold of `docOnlyStep`). -/
def allDocumentContent (ext : Ext) (book : Book) (cfg : ExtractorConfig)
    (st : ImgState) : List Item × ImgState :=
  let acc := book.spine.foldl (docOnlyStep ext book cfg)
    { content := [], processed := [], imgSt := st }
  (acc.content, acc.imgSt)

theorem spineStep_nil_chapters (ext : Ext) (book : Book) (cfg : ExtractorConfig)
    (acc : AssemblerAcc) (entry : Str × Str) :
    spineStep ext book cfg [] acc entry = docOnlyStep ext book cfg acc entry := by
  simp [spineStep, docOnlyStep, dictLookup]

theorem chapterStart_free_docOnly (ext : Ext) (book : Book) (cfg : ExtractorConfig)
    (spine : List (Str × Str)) :
    ∀ (acc : AssemblerAcc), (∀ it ∈ acc.content, isChapterStart it = false) →
      ∀ it ∈ (spine.foldl (docOnlyStep ext book cfg) acc).content,
        isChapterStart it = false := by
  induction spine with
  | nil =>
      intro acc hacc it h
      simpa using hacc it h
  | cons entry rest ih =>
      intro acc hacc it h
      simp only [List.foldl_cons] at h
      refine ih _ ?_ it h
      intro x hx
      simp only [docOnlyStep] at hx
      split at hx
      · exact hacc x hx
      · split at hx
        · split at hx
          · exact hacc x hx
          · rcases List.mem_append.mp hx with h1 | h1
            · exact hacc x h1
            · refine processDocumentItem_pred (fun it => isChapterStart it = false)
                (fun t ht => rfl) (fun fp fn alt => rfl) (fun t r nm hp => rfl)
                ext book cfg _ _ x h1
        · exact hacc x hx

end EpubXml

namespace EpubXml

theorem save_dedup_hit (ext : Ext) (cfg : ExtractorConfig) (st : ImgState)
    (b : List Nat) (src : Str) (w h : Option Int) (lg : LogEntry)
    (hfind : st.imageLog.find? (fun l => l.hash == ext.md5Hex b) = some lg) :
    ImageProcessor.save ext cfg st b src w h =
      (some { filepath := lg.filepath, filename := lg.filename,
              dimensions := lg.dimensions, hash := ext.md5Hex b,
              source := src }, st, false) := by
  simp only [ImageProcessor.save, hfind]

theorem save_fresh_success (ext : Ext) (cfg : ExtractorConfig) (st : ImgState)
    (b : List Nat) (src : Str) (w h : Option Int) (d : LogEntry) (st' : ImgState)
    (dec : Bool)
    (hfind : st.imageLog.find? (fun l => l.hash == ext.md5Hex b) = none)
    (hfresh : ext.md5Hex b ∉ st.processedImages)
    (hsave : ImageProcessor.save ext cfg st b src w h = (some d, st', dec)) :
    st'.imageLog = st.imageLog ++ [d] ∧ d.hash = ext.md5Hex b := by
  simp only [ImageProcessor.save, hfind] at hsave
  cases hopen : ext.pilOpen b with
  | none =>
      simp only [hopen] at hsave
      simp at hsave
  | some img =>
      simp only [hopen] at hsave
      repeat' split at hsave
      all_goals
        first
        | exact absurd (by assumption : ext.md5Hex b ∈ st.processedImages) hfresh
        | (simp only [Prod.mk.injEq, Option.some.injEq] at hsave
           obtain ⟨hd, hst', hdec⟩ := hsave
           subst hd
           rw [← hst']
           exact ⟨by simp, rfl⟩)
        | simp at hsave

/-- C1: within one run, a second `ImageProcessor.save` call with
byte-identical image bytes returns the stored image of the first call (same
`filepath` and `filename`) without re-decoding the bytes, leaves the state
unchanged, and the image manifest log holds exactly one entry for that
content hash. -/
theorem c1_image_dedup_idempotent (ext : Ext) (cfg : ExtractorConfig)
    (st : ImgState) (b : List Nat) (src₁ src₂ : Str) (w₁ h₁ w₂ h₂ : Option Int)
    (d₁ : LogEntry) (st₁ : ImgState) (dec₁ : Bool)
    (hfresh : ∀ l ∈ st.imageLog, l.hash ≠ ext.md5Hex b)
    (hfresh₂ : ext.md5Hex b ∉ st.processedImages)
    (hsave : ImageProcessor.save ext cfg st b src₁ w₁ h₁ = (some d₁, st₁, dec₁)) :
    ImageProcessor.save ext cfg st₁ b src₂ w₂ h₂ =
      (some { filepath := d₁.filepath, filename := d₁.filename,
              dimensions := d₁.dimensions, hash := ext.md5Hex b,
              source := src₂ }, st₁, false) ∧
    (st₁.imageLog.filter (fun l => l.hash == ext.md5Hex b)).length = 1 := by
  have hfind : st.imageLog.find? (fun l => l.hash == ext.md5Hex b) = none := by
    rw [List.find?_eq_none]
    intro l hl
    simpa using hfresh l hl
  obtain ⟨hlog, hhash⟩ :=
    save_fresh_success ext cfg st b src₁ w₁ h₁ d₁ st₁ dec₁ hfind hfresh₂ hsave
  have hfind₁ : st₁.imageLog.find? (fun l => l.hash == ext.md5Hex b) = some d₁ := by
    rw [hlog, List.find?_append, hfind]
    simp [hhash]
  refine ⟨save_dedup_hit ext cfg st₁ b src₂ w₂ h₂ d₁ hfind₁, ?_⟩
  rw [hlog, List.filter_append]
  have h1 : st.imageLog.filter (fun l => l.hash == ext.md5Hex b) = [] := by
    rw [List.filter_eq_nil_iff]
    intro l hl
    simpa using hfresh l hl
  rw [h1]
  simp [hhash]

/-- Sample external collaborators for concrete witnesses: a deterministic
stand-in hash, a decoder returning a 200×200 RGB image, and trivial base64
and relpath functions. -/
def sampleExt : Ext where
  md5Hex := fun bs => str ("h") ++ natToStr (bs.foldl (fun a v => a * 1000 + v) 0)
  pilOpen := fun _ => some { width := 200, height := 200, mode := str ("RGB") }
  b64decode := fun _ => [9, 9]
  relpath := fun p _ => some p

/-- Sample collaborators whose decoder reports a small 50×50 image. -/
def sampleExtSmall : Ext where
  md5Hex := fun bs => str ("h") ++ natToStr (bs.foldl (fun a v => a * 1000 + v) 0)
  pilOpen := fun _ => some { width := 50, height := 50, mode := str ("RGB") }
  b64decode := fun _ => [9, 9]
  relpath := fun p _ => some p

/-- Default configuration, as `ExtractorConfig()` constructs it. -/
def defaultCfg : ExtractorConfig := {}

/-- Fresh image-store state at the start of a run. -/
def freshImgState : ImgState :=
  { imageDir := str ("output/images"), processedImages := [], imageLog := [], files := [] }

theorem c1_image_dedup_idempotent_witness :
    ImageProcessor.save sampleExt defaultCfg
        (ImageProcessor.save sampleExt defaultCfg freshImgState [1, 2] (str ("one"))
          none none).2.1 [1, 2] (str ("two")) none none =
      (some { filepath := str ("output/images/h1002_200x200.jpg"),
              filename := str ("h1002_200x200.jpg"),
              dimensions := str ("200x200"), hash := str ("h1002"),
              source := str ("two") },
        (ImageProcessor.save sampleExt defaultCfg freshImgState [1, 2] (str ("one"))
          none none).2.1, false) ∧
    ((ImageProcessor.save sampleExt defaultCfg freshImgState [1, 2] (str ("one"))
        none none).2.1.imageLog.filter
      (fun l => l.hash == sampleExt.md5Hex [1, 2])).length = 1 := by
  have h := c1_image_dedup_idempotent sampleExt defaultCfg freshImgState [1, 2]
    (str ("one")) (str ("two")) none none none none
    ((ImageProcessor.save sampleExt defaultCfg freshImgState [1, 2] (str ("one"))
      none none).1.getD default)
    (ImageProcessor.save sampleExt defaultCfg freshImgState [1, 2] (str ("one"))
      none none).2.1
    (ImageProcessor.save sampleExt defaultCfg freshImgState [1, 2] (str ("one"))
      none none).2.2
    (by intro l hl; simp [freshImgState] at hl)
    (by simp [freshImgState, sampleExt])
    (by decide)
  refine ⟨?_, h.2⟩
  rw [h.1]
  decide

end EpubXml

namespace EpubXml

/-- C2 counterexample: with declared `width="200" height="200"` attributes
passed to `save`, an image whose bytes decode to 50×50 (below the 128
minimums) is accepted: the declared dimensions override the decoded ones in
the size check, so `save` does not return `None`. -/
theorem c2_declared_dims_override_counterexample :
    sampleExtSmall.pilOpen [1, 2] =
      some { width := 50, height := 50, mode := str ("RGB") } ∧
    (50 : Int) < defaultCfg.minImageWidth ∧
    (ImageProcessor.save sampleExtSmall defaultCfg freshImgState [1, 2]
      (str ("s")) (some 200) (some 200)).1.isSome = true := by
  decide

/-- C2 amended: the size check uses the effective dimensions — a declared
width/height passed to `save` takes precedence, with the decoded dimension
used only when no declared value is present.  An image whose effective
width or height is below the configured minimum (and whose hash is not
already logged) yields `None`. -/
theorem c2_small_image_filtering_amended (ext : Ext) (cfg : ExtractorConfig)
    (st : ImgState) (b : List Nat) (src : Str) (w h : Option Int)
    (img : DecodedImage)
    (hfind : st.imageLog.find? (fun l => l.hash == ext.md5Hex b) = none)
    (hopen : ext.pilOpen b = some img)
    (hsmall : w.getD img.width < cfg.minImageWidth ∨
      h.getD img.height < cfg.minImageHeight) :
    ImageProcessor.save ext cfg st b src w h = (none, st, true) := by
  cases w with
  | none =>
      cases h with
      | none =>
          simp only [Option.getD_none] at hsmall
          have hcond : (decide (img.width < cfg.minImageWidth) ||
              decide (img.height < cfg.minImageHeight)) = true := by
            rcases hsmall with h1 | h1 <;> simp [h1]
          simp only [ImageProcessor.save, hfind, hopen, hcond, if_true]
      | some u =>
          simp only [Option.getD_none, Option.getD_some] at hsmall
          have hcond : (decide (img.width < cfg.minImageWidth) ||
              decide (u < cfg.minImageHeight)) = true := by
            rcases hsmall with h1 | h1 <;> simp [h1]
          simp only [ImageProcessor.save, hfind, hopen, hcond, if_true]
  | some v =>
      cases h with
      | none =>
          simp only [Option.getD_none, Option.getD_some] at hsmall
          have hcond : (decide (v < cfg.minImageWidth) ||
              decide (img.height < cfg.minImageHeight)) = true := by
            rcases hsmall with h1 | h1 <;> simp [h1]
          simp only [ImageProcessor.save, hfind, hopen, hcond, if_true]
      | some u =>
          simp only [Option.getD_some] at hsmall
          have hcond : (decide (v < cfg.minImageWidth) ||
              decide (u < cfg.minImageHeight)) = true := by
            rcases hsmall with h1 | h1 <;> simp [h1]
          simp only [ImageProcessor.save, hfind, hopen, hcond, if_true]

theorem c2_small_image_filtering_amended_witness :
    ImageProcessor.save sampleExtSmall defaultCfg freshImgState [1, 2]
      (str ("s")) none none = (none, freshImgState, true) :=
  c2_small_image_filtering_amended sampleExtSmall defaultCfg freshImgState
    [1, 2] (str ("s")) none none
    { width := 50, height := 50, mode := str ("RGB") }
    (by decide) (by decide) (by decide)

/-- A parsed document with no body element anywhere. -/
def noBodyDoc : PNode :=
  PNode.elem (str ("[document]")) []
    [PNode.elem (str ("div")) [] [PNode.text (str ("Hello"))]]

/-- Manifest item for `noBodyDoc`. -/
def noBodyItem : EpubItem :=
  { id := str ("d1"), name := str ("doc1.xhtml"), properties := [],
    itemType := ItemType.document, doc := noBodyDoc, bytes := [] }

/-- A parsed document whose body has only text, no element children. -/
def flatBodyDoc : PNode :=
  PNode.elem (str ("[document]")) []
    [PNode.elem (str ("body")) [] [PNode.text (str ("Plain text"))]]

/-- Manifest item for `flatBodyDoc`. -/
def flatBodyItem : EpubItem :=
  { id := str ("d2"), name := str ("doc2.xhtml"), properties := [],
    itemType := ItemType.document, doc := flatBodyDoc, bytes := [] }

/-- A book with no manifest items, for walker-only scenarios. -/
def emptyBook : Book := { items := [], spine := [] }

/-- C3 counterexample: a spine document without a body element is skipped
entirely — `process_document_item` extracts nothing — even though invoking
the walker on the document's root element would extract its paragraph. -/
theorem c3_missing_body_skipped_counterexample :
    (processDocumentItem sampleExt emptyBook defaultCfg noBodyItem freshImgState).1 = [] ∧
    (processTagContent sampleExt emptyBook defaultCfg
      (PNode.elem (str ("div")) [] [PNode.text (str ("Hello"))])
      (str ("Body Direct")) (str ("doc1.xhtml")) freshImgState).1 =
      [Item.paragraph (str ("Hello")) none] := by
  decide

/-- C3 amended: a document whose markup lacks a body element is skipped
(no content is extracted for it); the degraded walk-the-container path
applies only when a body exists but has no direct child tags, in which case
the walker is invoked on the body element itself. -/
theorem c3_missing_body_amended (ext : Ext) (book : Book) (cfg : ExtractorConfig)
    (item : EpubItem) (st : ImgState) :
    (findFirstByName item.doc (str ("body")) = none →
      processDocumentItem ext book cfg item st = ([], st)) ∧
    (∀ body, findFirstByName item.doc (str ("body")) = some body →
      (directChildTags body).isEmpty = true →
      processDocumentItem ext book cfg item st =
        processTagContent ext book cfg body (str ("Body Direct"))
          (pyUnquote item.name) st) := by
  constructor
  · intro hnone
    simp [processDocumentItem, hnone]
  · intro body hsome hempty
    simp [processDocumentItem, hsome, hempty]

theorem c3_missing_body_amended_witness :
    processDocumentItem sampleExt emptyBook defaultCfg noBodyItem freshImgState =
      ([], freshImgState) ∧
    processDocumentItem sampleExt emptyBook defaultCfg flatBodyItem freshImgState =
      processTagContent sampleExt emptyBook defaultCfg
        (PNode.elem (str ("body")) [] [PNode.text (str ("Plain text"))])
        (str ("Body Direct")) (pyUnquote flatBodyItem.name) freshImgState := by
  constructor
  · exact (c3_missing_body_amended sampleExt emptyBook defaultCfg noBodyItem
      freshImgState).1 rfl
  · exact (c3_missing_body_amended sampleExt emptyBook defaultCfg flatBodyItem
      freshImgState).2
      (PNode.elem (str ("body")) [] [PNode.text (str ("Plain text"))]) rfl rfl

/-- C4: every paragraph item emitted by the Content Tree Walker has
non-empty text with no leading/trailing whitespace and no internal run of
two or more consecutive whitespace characters. -/
theorem c4_paragraph_whitespace_invariant (ext : Ext) (book : Book)
    (cfg : ExtractorConfig) (tag : PNode) (context baseHref : Str)
    (st : ImgState) (t : Str) (r : Option Str)
    (hmem : Item.paragraph t r ∈
      (processTagContent ext book cfg tag context baseHref st).1) :
    textNormalized t = true := by
  have h := processTagContent_pred
    (fun it => ∀ t' r', it = .paragraph t' r' → textNormalized t' = true)
    (fun t2 ht2 t' r' he => by cases he; exact ht2)
    (fun fp fn alt t' r' he => by cases he)
    (fun t2 r2 nm hp t' r' he => by cases he; exact hp t2 r2 rfl)
    ext book cfg tag context baseHref st _ hmem
  exact h t r rfl

/-- A body with whitespace-heavy markup for the whitespace witness. -/
def messyBody : PNode :=
  PNode.elem (str ("body")) []
    [PNode.elem (str ("p")) []
      [PNode.text (str ("  Hello ")), PNode.text (str ("
  world  "))]]

theorem c4_paragraph_whitespace_invariant_witness :
    Item.paragraph (str ("Hello world")) none ∈
      (processTagContent sampleExt emptyBook defaultCfg messyBody (str ("c"))
        (str ("d.xhtml")) freshImgState).1 ∧
    textNormalized (str ("Hello world")) = true :=
  ⟨by decide,
   c4_paragraph_whitespace_invariant sampleExt emptyBook defaultCfg messyBody
     (str ("c")) (str ("d.xhtml")) freshImgState (str ("Hello world")) none
     (by decide)⟩

end EpubXml

namespace EpubXml

/-- C5 counterexample: for `<div><h1><h2>T</h2></h1></div>` the paragraph
resulting from the (nested) h2 heading carries role `h1` in the final
output — the outer heading's role assignment overwrites the inner one — so
the h2 heading's first paragraph is not tagged with its own level. -/
theorem c5_nested_heading_counterexample :
    (processTagContent sampleExt emptyBook defaultCfg
      (PNode.elem (str ("div")) []
        [PNode.elem (str ("h1")) []
          [PNode.elem (str ("h2")) [] [PNode.text (str ("T"))]]])
      (str ("c")) (str ("d.xhtml")) freshImgState).1 =
      [Item.paragraph (str ("T")) (some (str ("h1")))] ∧
    (str ("h1") : Str) ≠ str ("h2") := by
  decide

/-- C5 amended: every paragraph (not only the first) produced from a
heading block child is tagged, with the role of the outermost heading — a
nested heading's paragraphs end up carrying the outer level — while a tree
containing no heading element yields only role-free paragraphs. -/
theorem c5_heading_role_amended (ext : Ext) (book : Book) (cfg : ExtractorConfig)
    (hk : Str) (hhk : hk ∈ headingTags) (attrs : List (Str × Str))
    (cs : List PNode) (context baseHref : Str) (st : ImgState) :
    (∀ t r, Item.paragraph t r ∈ (processTagContent ext book cfg
        (PNode.elem (str ("div")) [] [PNode.elem hk attrs cs])
        context baseHref st).1 → r = some hk) ∧
    (∀ tag, noHeadingNode tag = true → ∀ t r,
      Item.paragraph t r ∈
        (processTagContent ext book cfg tag context baseHref st).1 → r = none) := by
  have hblock : hk ∈ blockTags := by fin_cases hhk <;> decide
  have himgf : (hk == str ("img") || hk == str ("image")) = false := by
    fin_cases hhk <;> decide
  have hsvgf : (hk == str ("svg")) = false := by
    fin_cases hhk <;> decide
  constructor
  · intro t r hmem
    simp only [processTagContent, processContents, hblock, if_true, himgf, hsvgf,
      Bool.false_eq_true, if_false, hhk, flushText, List.isEmpty_nil, if_true,
      List.nil_append] at hmem
    split at hmem
    all_goals try split at hmem
    all_goals
      obtain ⟨y, hy, hey⟩ := List.mem_map.mp hmem
    all_goals
      cases y with
      | paragraph ty ry =>
          simp only [setParagraphRole] at hey
          cases hey
          rfl
      | image fp fn alt =>
          simp only [setParagraphRole] at hey
          cases hey
      | chapterStart tt hh =>
          simp only [setParagraphRole] at hey
          cases hey
  · intro tag hnh t r hmem
    exact processTagContent_norole ext book cfg tag context baseHref st hnh
      (Item.paragraph t r) hmem t r rfl

theorem c5_heading_role_amended_witness :
    (str ("h1")) ∈ headingTags ∧
    Item.paragraph (str ("T")) (some (str ("h1"))) ∈
      (processTagContent sampleExt emptyBook defaultCfg
        (PNode.elem (str ("div")) []
          [PNode.elem (str ("h1")) [] [PNode.text (str ("T"))]])
        (str ("c")) (str ("d.xhtml")) freshImgState).1 ∧
    some (str ("h1")) = some (str ("h1")) :=
  ⟨by decide, by decide,
   (c5_heading_role_amended sampleExt emptyBook defaultCfg (str ("h1"))
     (by decide) [] [PNode.text (str ("T"))] (str ("c")) (str ("d.xhtml"))
     freshImgState).1 (str ("T")) (some (str ("h1"))) (by decide)⟩

/-- Parsed EPUB3 navigation document of the alignment scenario: a
`nav[epub:type=toc]` holding one anchor with a fragment-carrying href. -/
def navDoc : PNode :=
  PNode.elem (str ("[document]")) []
    [PNode.elem (str ("html")) [] [PNode.elem (str ("body")) []
      [PNode.elem (str ("nav")) [(str ("epub:type"), str ("toc"))]
        [PNode.elem (str ("ol")) [] [PNode.elem (str ("li")) []
          [PNode.elem (str ("a")) [(str ("href"), str ("chapter2.xhtml#sec1"))]
            [PNode.text (str ("Chapter 2"))]]]]]]]

/-- Parsed spine document `chapter2.xhtml` of the alignment scenario. -/
def chapDoc : PNode :=
  PNode.elem (str ("[document]")) []
    [PNode.elem (str ("html")) [] [PNode.elem (str ("body")) []
      [PNode.elem (str ("p")) [] [PNode.text (str ("Hello world"))]]]]

/-- Navigation manifest item (`nav` property present). -/
def navItem : EpubItem :=
  { id := str ("nav"), name := str ("nav.xhtml"), properties := [str ("nav")],
    itemType := ItemType.document, doc := navDoc, bytes := [] }

/-- Spine document item named `chapter2.xhtml`. -/
def chapItem : EpubItem :=
  { id := str ("c2"), name := str ("chapter2.xhtml"), properties := [],
    itemType := ItemType.document, doc := chapDoc, bytes := [] }

/-- The alignment-scenario book: one nav item, one spine document. -/
def c6Book : Book :=
  { items := [navItem, chapItem], spine := [(str ("c2"), str ("yes"))] }

/-- C6: the navigation anchor `chapter2.xhtml#sec1` normalizes to
`chapter2.xhtml`; the spine document named `chapter2.xhtml` independently
normalizes to the same string; and processing the book appends exactly one
`ChapterStart` with the anchor's title immediately before the document's
walked items. -/
theorem c6_nav_spine_alignment :
    normalizeNavHref (str ("nav.xhtml")) (str ("chapter2.xhtml#sec1")) =
      str ("chapter2.xhtml") ∧
    normalizeSpineName (str ("chapter2.xhtml")) = str ("chapter2.xhtml") ∧
    extractChapters c6Book = [(str ("chapter2.xhtml"), str ("Chapter 2"))] ∧
    (processContent sampleExt c6Book defaultCfg (extractChapters c6Book)
      freshImgState).1 =
      [Item.chapterStart (str ("Chapter 2")) (str ("chapter2.xhtml")),
       Item.paragraph (str ("Hello world")) none] ∧
    ((processContent sampleExt c6Book defaultCfg (extractChapters c6Book)
      freshImgState).1.filter (fun it => isChapterStart it)).length = 1 := by
  decide

end EpubXml

namespace EpubXml

/-- C7: when no navigation document exists (no item with the `nav`
property, no navigation-control item), `extract_chapters` yields the empty
sequence — not an error — and the spine pass still extracts all document
content, with no `ChapterStart` marker anywhere, and `process` completes. -/
theorem c7_graceful_degradation (ext : Ext) (book : Book) (cfg : ExtractorConfig)
    (st : ImgState)
    (hnav : ∀ it ∈ book.items, str ("nav") ∉ it.properties)
    (hncx : ∀ it ∈ book.items, it.itemType ≠ ItemType.navigation) :
    extractChapters book = [] ∧
    processContent ext book cfg (extractChapters book) st =
      allDocumentContent ext book cfg st ∧
    (∀ it ∈ (processContent ext book cfg (extractChapters book) st).1,
      isChapterStart it = false) ∧
    (process ext book cfg st).1 = true := by
  have h1 : book.items.find? (fun it => it.properties.contains (str ("nav"))) = none := by
    rw [List.find?_eq_none]
    intro it hit
    simpa using hnav it hit
  have h2 : book.items.filter (fun it => it.itemType == ItemType.navigation) = [] := by
    rw [List.filter_eq_nil_iff]
    intro it hit
    simpa using hncx it hit
  have hchap : extractChapters book = [] := by
    unfold extractChapters
    rw [h1, h2]
    rfl
  have hfold : processContent ext book cfg [] st = allDocumentContent ext book cfg st := by
    simp only [processContent, allDocumentContent, processContentAux]
    rw [List.foldl_ext (spineStep ext book cfg []) (docOnlyStep ext book cfg) _
      (fun a b _ => spineStep_nil_chapters ext book cfg a b)]
  refine ⟨hchap, by rw [hchap]; exact hfold, ?_, rfl⟩
  rw [hchap, hfold]
  simp only [allDocumentContent]
  exact chapterStart_free_docOnly ext book cfg book.spine _ (by simp)

/-- A one-document book with no navigation item at all. -/
def c7Book : Book := { items := [chapItem], spine := [(str ("c2"), str ("yes"))] }

theorem c7_graceful_degradation_witness :
    extractChapters c7Book = [] ∧
    processContent sampleExt c7Book defaultCfg (extractChapters c7Book)
      freshImgState = allDocumentContent sampleExt c7Book defaultCfg freshImgState ∧
    (processContent sampleExt c7Book defaultCfg (extractChapters c7Book)
      freshImgState).1.filter (fun it => isChapterStart it) = [] ∧
    (process sampleExt c7Book defaultCfg freshImgState).1 = true := by
  have h := c7_graceful_degradation sampleExt c7Book defaultCfg freshImgState
    (by intro it hit; fin_cases hit <;> decide)
    (by intro it hit; fin_cases hit <;> decide)
  refine ⟨h.1, h.2.1, ?_, h.2.2.2⟩
  rw [List.filter_eq_nil_iff]
  intro a ha
  simp [h.2.2.1 a ha]

theorem firstResolvedContent_eq_none_iff (book : Book) (cs : List Str) :
    firstResolvedContent book cs = none ↔
      ∀ c ∈ cs, getItemWithHref book c = none := by
  induction cs with
  | nil => simp [firstResolvedContent]
  | cons c rest ih =>
      simp only [firstResolvedContent]
      cases hc : getItemWithHref book c with
      | some it =>
          constructor
          · intro h
            exact absurd h (by simp)
          · intro h
            exact absurd (h c (by simp)) (by simp [hc])
      | none =>
          constructor
          · intro h
            intro a ha
            rcases List.mem_cons.mp ha with h1 | h1
            · rw [h1]; exact hc
            · exact ih.mp h a h1
          · intro h
            exact ih.mpr (fun a ha => h a (List.mem_cons_of_mem _ ha))

theorem firstResolvedContent_cons_hit (book : Book) (c : Str) (rest : List Str)
    (it : EpubItem) (hc : getItemWithHref book c = some it) :
    firstResolvedContent book (c :: rest) = some it.bytes := by
  simp [firstResolvedContent, hc]

theorem dedupKeepFirstAux_cons_notmem (x : Str) (rest seen : List Str)
    (h : x ∉ seen) :
    dedupKeepFirstAux (x :: rest) seen = x :: dedupKeepFirstAux rest (seen ++ [x]) := by
  simp [dedupKeepFirstAux, h]

theorem candidateHrefs_head (href baseHref : Str) :
    ∃ tail, candidateHrefs href baseHref =
      pyUnquote (absoluteHref href baseHref) :: tail := by
  have h : (candidateHrefs href baseHref).head? =
      some (pyUnquote (absoluteHref href baseHref)) := by
    simp only [candidateHrefs, dedupKeepFirst, List.cons_append, List.nil_append]
    rw [dedupKeepFirstAux_cons_notmem _ _ _ (List.not_mem_nil _)]
    rfl
  cases hcl : candidateHrefs href baseHref with
  | nil =>
      rw [hcl] at h
      simp at h
  | cons a t =>
      rw [hcl] at h
      simp only [List.head?_cons, Option.some.injEq] at h
      exact ⟨t, by rw [h]⟩

/-- Image item whose name matches the raw reference verbatim. -/
def imgItemVerbatim : EpubItem :=
  { id := str ("i1"), name := str ("img.png"), properties := [],
    itemType := ItemType.image, doc := PNode.text [], bytes := [1] }

/-- Image item whose name matches the reference resolved relative to the
containing document's directory. -/
def imgItemRelative : EpubItem :=
  { id := str ("i2"), name := str ("ch/img.png"), properties := [],
    itemType := ItemType.image, doc := PNode.text [], bytes := [2] }

/-- A book carrying both the verbatim-named and the relative-resolved image. -/
def c8Book : Book := { items := [imgItemVerbatim, imgItemRelative], spine := [] }

/-- C8 counterexample: with a manifest holding both `img.png` (verbatim)
and `ch/img.png` (relative to the document `ch/doc.xhtml`), the resolver
returns the relative-resolved item's bytes, not the verbatim item's — the
relative form is probed before the verbatim one, contrary to the claimed
priority order. -/
theorem c8_resolver_order_counterexample :
    extractImageData sampleExt c8Book (str ("img.png")) (str ("ch/doc.xhtml")) =
      some [2] ∧
    (getItemWithHref c8Book (str ("img.png"))).map (fun it => it.bytes) =
      some [1] ∧
    ([2] : List Nat) ≠ [1] := by
  decide

/-- C8 amended: resolution decodes data URIs directly; otherwise it probes,
in order, the percent-decoded relative-resolved reference, the
relative-resolved reference, the verbatim reference, their `./`/`../`
stripped variants, and the fixed root-folder prefixes — so the
relative-resolved form takes priority over the verbatim one — and returns
`None` without raising exactly when no candidate resolves. -/
theorem c8_resolver_amended (ext : Ext) (book : Book) (href baseHref : Str)
    (hnd : (str ("data:image")).isPrefixOf href = false) :
    (extractImageData ext book href baseHref = none ↔
      ∀ c ∈ candidateHrefs href baseHref, getItemWithHref book c = none) ∧
    (∀ it, getItemWithHref book (pyUnquote (absoluteHref href baseHref)) = some it →
      extractImageData ext book href baseHref = some it.bytes) := by
  have hext : extractImageData ext book href baseHref =
      firstResolvedContent book (candidateHrefs href baseHref) := by
    simp [extractImageData, hnd]
  constructor
  · rw [hext]
    exact firstResolvedContent_eq_none_iff book _
  · intro it hit
    obtain ⟨tail, htail⟩ := candidateHrefs_head href baseHref
    rw [hext, htail]
    exact firstResolvedContent_cons_hit book _ tail it hit

theorem c8_resolver_amended_witness :
    extractImageData sampleExt c8Book (str ("missing.png"))
      (str ("ch/doc.xhtml")) = none ∧
    extractImageData sampleExt c8Book (str ("img.png"))
      (str ("ch/doc.xhtml")) = some imgItemRelative.bytes := by
  constructor
  · exact (c8_resolver_amended sampleExt c8Book (str ("missing.png"))
      (str ("ch/doc.xhtml")) (by decide)).1.mpr
      (by intro c hc; fin_cases hc <;> rfl)
  · exact (c8_resolver_amended sampleExt c8Book (str ("img.png"))
      (str ("ch/doc.xhtml")) (by decide)).2 imgItemRelative rfl

/-- C9: a spine entry that repeats an earlier entry contributes nothing —
the document is walked exactly once — and a spine entry resolving to a
non-document manifest item is skipped as well. -/
theorem c9_duplicate_spine_once (ext : Ext) (book : Book) (cfg : ExtractorConfig)
    (chapters : List (Str × Str)) (st : ImgState) (x : Str × Str)
    (pre post : List (Str × Str)) :
    (x ∈ pre →
      processContentAux ext book cfg chapters (pre ++ x :: post)
        { content := [], processed := [], imgSt := st } =
      processContentAux ext book cfg chapters (pre ++ post)
        { content := [], processed := [], imgSt := st }) ∧
    (∀ item, getSpineItem book x.1 = some item →
      item.itemType ≠ ItemType.document →
      processContentAux ext book cfg chapters (pre ++ x :: post)
        { content := [], processed := [], imgSt := st } =
      processContentAux ext book cfg chapters (pre ++ post)
        { content := [], processed := [], imgSt := st }) := by
  have key : spineStep ext book cfg chapters
      (processContentAux ext book cfg chapters pre
        { content := [], processed := [], imgSt := st }) x =
      processContentAux ext book cfg chapters pre
        { content := [], processed := [], imgSt := st } →
      processContentAux ext book cfg chapters (pre ++ x :: post)
        { content := [], processed := [], imgSt := st } =
      processContentAux ext book cfg chapters (pre ++ post)
        { content := [], processed := [], imgSt := st } := by
    intro hstep
    simp only [processContentAux, List.foldl_append, List.foldl_cons] at hstep ⊢
    rw [hstep]
  constructor
  · intro hx
    refine key ?_
    cases hres : getSpineItem book x.1 with
    | none => exact spineStep_skip_unresolved ext book cfg chapters _ x hres
    | some item =>
        by_cases hdoc : item.itemType = ItemType.document
        · exact spineStep_skip_processed ext book cfg chapters _ x item hres hdoc
            (mem_processed_after ext book cfg chapters x item hres hdoc pre _ hx)
        · exact spineStep_skip_nondoc ext book cfg chapters _ x item hres hdoc
  · intro item hres hnd
    exact key (spineStep_skip_nondoc ext book cfg chapters _ x item hres hnd)

theorem c9_duplicate_spine_once_witness :
    processContentAux sampleExt c6Book defaultCfg []
      ([(str ("c2"), str ("yes"))] ++ (str ("c2"), str ("yes")) :: [])
      { content := [], processed := [], imgSt := freshImgState } =
    processContentAux sampleExt c6Book defaultCfg []
      ([(str ("c2"), str ("yes"))] ++ [])
      { content := [], processed := [], imgSt := freshImgState } :=
  (c9_duplicate_spine_once sampleExt c6Book defaultCfg [] freshImgState
    (str ("c2"), str ("yes")) [(str ("c2"), str ("yes"))] []).1 (by decide)

/-- C10: in the XML serialization, paragraph and image items that precede
the first chapter-start item contribute nothing to the output — orphan
content before any detected chapter is silently dropped. -/
theorem c10_orphan_content_dropped (ext : Ext) (cfg : ExtractorConfig)
    (orphans rest : List Item)
    (h : ∀ it ∈ orphans, isChapterStart it = false) :
    saveResultsXml ext cfg (orphans ++ rest) = saveResultsXml ext cfg rest := by
  have key : ∀ (l : List Item), (∀ it ∈ l, isChapterStart it = false) →
      l.foldl (xmlStep ext cfg)
        { chapters := [], chapterCount := 0, paragraphCount := 0, imageCount := 0 } =
      { chapters := [], chapterCount := 0, paragraphCount := 0, imageCount := 0 } := by
    intro l
    induction l with
    | nil => intro _; rfl
    | cons a t ih =>
        intro hl
        rw [List.foldl_cons,
          xmlStep_orphan ext cfg _ a (hl a (by simp)) rfl]
        exact ih (fun it hit => hl it (List.mem_cons_of_mem _ hit))
  simp only [saveResultsXml, List.foldl_append]
  rw [key orphans h]

theorem c10_orphan_content_dropped_witness :
    saveResultsXml sampleExt defaultCfg
      ([Item.paragraph (str ("orphan")) none,
        Item.image (str ("p")) (str ("f")) (str ("a"))] ++
       [Item.chapterStart (str ("Ch")) (str ("c.xhtml")),
        Item.paragraph (str ("body text")) none]) =
    saveResultsXml sampleExt defaultCfg
      [Item.chapterStart (str ("Ch")) (str ("c.xhtml")),
       Item.paragraph (str ("body text")) none] :=
  c10_orphan_content_dropped sampleExt defaultCfg _ _ (by decide)

end EpubXml
